import Mathlib

/-!
Verification of the SSH-config-to-terminal-profiles synchronizer
(`ssh_to_terminal.py`).

The development shallowly embeds the program's core:
* the deterministic identity (`uuid.uuid5`, SHA-1 based) used for profile guids,
* the `SshHost` record with its derived `commandline` and `guid`,
* the line-oriented SSH-config parser `parse_ssh_config`,
* the profile reconciler `upsert_profiles` / `remove_profiles` over a
  JSON-like value type, and
* the post-argument-parsing control flow of `main`.

Machine integers do not occur (Python ints are unbounded); 32-bit arithmetic
inside SHA-1 is modelled as `Nat` with explicit `% 2^32`.  Python strings are
modelled as Lean `String` / `List Char`; the ASCII fragments of `\s`, `\w`,
`str.strip`, `str.lower` are modelled (the program only feeds them ASCII
config syntax).  Python lists are Lean lists, dict literals are association
structures, and in-place mutation is explicit state passing.
-/

/-! ## 32-bit helpers over `Nat` (for SHA-1) -/

def w32 (n : Nat) : Nat := n % 4294967296

def rotl32 (x n : Nat) : Nat := w32 (x * 2 ^ n + x / 2 ^ (32 - n))

def not32 (x : Nat) : Nat := 4294967295 ^^^ x

def beBytes8 (n : Nat) : List Nat :=
  [n / 2 ^ 56 % 256, n / 2 ^ 48 % 256, n / 2 ^ 40 % 256, n / 2 ^ 32 % 256,
   n / 2 ^ 24 % 256, n / 2 ^ 16 % 256, n / 2 ^ 8 % 256, n % 256]

def wordBytesBE (w : Nat) : List Nat :=
  [w / 2 ^ 24 % 256, w / 2 ^ 16 % 256, w / 2 ^ 8 % 256, w % 256]

def bytesToWordsBE : List Nat → List Nat
  | b0 :: b1 :: b2 :: b3 :: rest =>
    (((b0 * 256 + b1) * 256 + b2) * 256 + b3) :: bytesToWordsBE rest
  | _ => []

/-! ## SHA-1 (as used by `uuid.uuid5`) -/

def sha1Pad (msg : List Nat) : List Nat :=
  let padZeros := (64 - (msg.length + 9) % 64) % 64
  msg ++ [128] ++ List.replicate padZeros 0 ++ beBytes8 (msg.length * 8)

/-- Splits a byte list into 64-byte blocks; the fuel argument (instantiated
with the list length) keeps the recursion structural so that the kernel can
evaluate it. -/
def chunksAux (fuel : Nat) (l : List Nat) : List (List Nat) :=
  match fuel, l with
  | 0, _ => []
  | _, [] => []
  | fuel + 1, l => l.take 64 :: chunksAux fuel (l.drop 64)

def sha1ExtendFrom (w : List Nat) : Nat → List Nat
  | 0 => w
  | k + 1 =>
    sha1ExtendFrom
      (w ++ [rotl32 ((w.getD (w.length - 3) 0) ^^^ (w.getD (w.length - 8) 0) ^^^
                     (w.getD (w.length - 14) 0) ^^^ (w.getD (w.length - 16) 0)) 1]) k

structure Sha1St where
  a : Nat
  b : Nat
  c : Nat
  d : Nat
  e : Nat

def sha1Round (st : Sha1St) (iw : Nat × Nat) : Sha1St :=
  let i := iw.1
  let w := iw.2
  let f :=
    if i < 20 then (st.b &&& st.c) ||| (not32 st.b &&& st.d)
    else if i < 40 then st.b ^^^ st.c ^^^ st.d
    else if i < 60 then (st.b &&& st.c) ||| (st.b &&& st.d) ||| (st.c &&& st.d)
    else st.b ^^^ st.c ^^^ st.d
  let k :=
    if i < 20 then 1518500249
    else if i < 40 then 1859775393
    else if i < 60 then 2400959708
    else 3395469782
  let temp := w32 (rotl32 st.a 5 + f + st.e + k + w)
  ⟨temp, st.a, rotl32 st.b 30, st.c, st.d⟩

def sha1Block (h : Sha1St) (block : List Nat) : Sha1St :=
  let w80 := sha1ExtendFrom (bytesToWordsBE block) 64
  let st := w80.enum.foldl sha1Round h
  ⟨w32 (h.a + st.a), w32 (h.b + st.b), w32 (h.c + st.c), w32 (h.d + st.d), w32 (h.e + st.e)⟩

def sha1Digest (msg : List Nat) : List Nat :=
  let padded := sha1Pad msg
  let final := (chunksAux padded.length padded).foldl sha1Block
    ⟨1732584193, 4023233417, 2562383102, 271733878, 3285377520⟩
  wordBytesBE final.a ++ wordBytesBE final.b ++ wordBytesBE final.c ++
    wordBytesBE final.d ++ wordBytesBE final.e

/-- UTF-8 encoding of a single character, as in Python's `str.encode("utf-8")`. -/
def utf8Char (c : Char) : List Nat :=
  let n := c.toNat
  if n < 128 then [n]
  else if n < 2048 then [192 + n / 64, 128 + n % 64]
  else if n < 65536 then [224 + n / 4096, 128 + n / 64 % 64, 128 + n % 64]
  else [240 + n / 262144, 128 + n / 4096 % 64, 128 + n / 64 % 64, 128 + n % 64]

def utf8Bytes (s : String) : List Nat := s.data.flatMap utf8Char

def hexDigit (n : Nat) : Char := "0123456789abcdef".data.getD n '0'

def byteHex (b : Nat) : List Char := [hexDigit (b / 16), hexDigit (b % 16)]

/-- Bytes of the fixed namespace `uuid.UUID("12345678-1234-5678-1234-567812345678")`
used by `SshHost.guid` (ssh_to_terminal.py line 57). -/
def uuidNsBytes : List Nat :=
  [18, 52, 86, 120, 18, 52, 86, 120, 18, 52, 86, 120, 18, 52, 86, 120]

/-- Python's `str(uuid.uuid5(ns, name))`: SHA-1 over namespace bytes followed by
the UTF-8 bytes of `name`, truncated to 16 bytes, version nibble set to 5 and
variant bits to 10, rendered as lowercase 8-4-4-4-12 hex. -/
def uuid5String (nsBytes : List Nat) (name : String) : String :=
  let digest := (sha1Digest (nsBytes ++ utf8Bytes name)).take 16
  let b6 := digest.getD 6 0
  let b8 := digest.getD 8 0
  let bytes := (digest.take 6) ++ [(b6 &&& 15) ||| 80] ++ [digest.getD 7 0] ++
    [(b8 &&& 63) ||| 128] ++ digest.drop 9
  let hex := bytes.flatMap byteHex
  String.mk (hex.take 8 ++ ['-'] ++ (hex.drop 8).take 4 ++ ['-'] ++ (hex.drop 12).take 4 ++
    ['-'] ++ (hex.drop 16).take 4 ++ ['-'] ++ hex.drop 20)

/-! ## `SshHost` (ssh_to_terminal.py lines 34-58) -/

structure SshHost where
  name : String
  hostname : Option String := none
  user : Option String := none
  port : Option String := none
  identity_file : Option String := none
deriving DecidableEq, Repr

/-- Python truthiness of an optional string: `None` and `""` are falsy. -/
def optTruthy : Option String → Bool
  | some s => !(s == "")
  | none => false

/-- `SshHost.commandline` (lines 42-53): build `parts = ["ssh"]`, append
`-p port` if `self.port` is truthy, `-i identity_file` if truthy, compute
`target = hostname or name`, prefix `user@` if `self.user` is truthy, append
target, and join with single spaces. -/
def SshHost.commandline (h : SshHost) : String :=
  let parts : List String := ["ssh"]
  let parts := if optTruthy h.port then parts ++ ["-p", h.port.getD ""] else parts
  let parts := if optTruthy h.identity_file then parts ++ ["-i", h.identity_file.getD ""] else parts
  let target := if optTruthy h.hostname then h.hostname.getD "" else h.name
  let target := if optTruthy h.user then h.user.getD "" ++ "@" ++ target else target
  String.intercalate " " (parts ++ [target])

/-- `SshHost.guid` (lines 55-58): deterministic `uuid5` over the fixed
namespace and `"ssh-to-terminal:" + name`. -/
def SshHost.guid (h : SshHost) : String :=
  uuid5String uuidNsBytes ("ssh-to-terminal:" ++ h.name)

/-! ## SSH config parser (lines 29-31, 106-150)

Lines of a file are modelled as lists of characters not containing `'\n'`
(the code iterates the file line by line and strips the trailing newline).
The ASCII parts of the regex classes `\s` and `\w` are modelled; the config
syntax the program understands is ASCII. -/

def isPySpace (c : Char) : Bool :=
  c = ' ' || c = '\t' || c = '\n' || c = '\x0b' || c = '\x0c' || c = '\r'

def isPyWord (c : Char) : Bool :=
  ('a' ≤ c && c ≤ 'z') || ('A' ≤ c && c ≤ 'Z') || ('0' ≤ c && c ≤ '9') || c = '_'

/-- Python's `str.strip()` (whitespace from both ends). -/
def pyStrip (l : List Char) : List Char :=
  ((l.dropWhile isPySpace).reverse.dropWhile isPySpace).reverse

/-- Python's `str.split()` with no argument: split on whitespace runs,
dropping empty tokens.  Accumulator-style so the recursion is structural. -/
def splitWsAux : List Char → List Char → List (List Char)
  | [], acc => if acc.isEmpty then [] else [acc.reverse]
  | c :: rest, acc =>
    if isPySpace c then
      if acc.isEmpty then splitWsAux rest [] else acc.reverse :: splitWsAux rest []
    else splitWsAux rest (c :: acc)

def splitWs (l : List Char) : List (List Char) := splitWsAux l []

/-- Python's `str.lower()` on an ASCII character (`re.IGNORECASE` over an
ASCII pattern behaves likewise). -/
def lowerChar (c : Char) : Char :=
  if 'A' ≤ c && c ≤ 'Z' then Char.ofNat (c.toNat + 32) else c

/-- Case-insensitive match of the literal `Host` at the start of a line;
returns the rest of the line on success.  This is the anchored prefix of
`HOST_LINE_RE = re.compile(r"^Host\s+(?P<patterns>.+)$", re.IGNORECASE)`
(line 29). -/
def matchHostKeyword : List Char → Option (List Char)
  | c1 :: c2 :: c3 :: c4 :: rest =>
    if (c1 = 'h' || c1 = 'H') && (c2 = 'o' || c2 = 'O') &&
       (c3 = 's' || c3 = 'S') && (c4 = 't' || c4 = 'T')
    then some rest else none
  | _ => none

/-- `HOST_LINE_RE.match(line)` followed by `.group("patterns").split()`:
the regex `^Host\s+(.+)$` matches iff after the case-insensitive `Host` there
is at least one whitespace character followed by at least one further
character; the whitespace-split of the `patterns` group equals the
whitespace-split of everything after `Host` (backtracking only moves leading
whitespace into the group, which `split` discards). -/
def hostLinePatterns (line : List Char) : Option (List (List Char)) :=
  match matchHostKeyword line with
  | some (c :: rest) =>
    if isPySpace c && !rest.isEmpty then some (splitWs (c :: rest)) else none
  | _ => none

/-- `KV_RE = re.compile(r"^(?P<key>\w+)\s+(?P<value>.+)$")` (line 30) applied
to an already-stripped line, returning the key and the value after the
source's additional `.strip()` of the value group.  The greedy `\w+` takes the
maximal word prefix; the match succeeds iff that prefix is nonempty, is
followed by a whitespace character, and at least one character remains after
it; stripping the value group equals stripping everything after the key. -/
def kvMatch (s : List Char) : Option (List Char × List Char) :=
  let k := s.takeWhile isPyWord
  let rest := s.dropWhile isPyWord
  match k, rest with
  | [], _ => none
  | _, [] => none
  | _ :: _, c :: rest2 =>
    if isPySpace c && !rest2.isEmpty then some (k, pyStrip rest) else none

/-- The per-block directive store `current_block` (lines 109, 123-124, 145-149):
only the four supported keys are ever stored. -/
structure ConfBlock where
  hostname : Option String := none
  user : Option String := none
  port : Option String := none
  identityfile : Option String := none
deriving DecidableEq, Repr

/-- `current_block[key] = val` guarded by `if key in SUPPORTED_KEYS` (lines
31, 145-149): unrecognized keys leave the block unchanged. -/
def setKey (b : ConfBlock) (key : List Char) (val : String) : ConfBlock :=
  if key = "hostname".data then { b with hostname := some val }
  else if key = "user".data then { b with user := some val }
  else if key = "port".data then { b with port := some val }
  else if key = "identityfile".data then { b with identityfile := some val }
  else b

def hasWildcard (tok : List Char) : Bool := tok.contains '*' || tok.contains '?'

/-- The body of `flush` (lines 111-128): one `SshHost` per non-wildcard
pattern token, all sharing the block's stored directive values. -/
def flushBlock (names : List (List Char)) (b : ConfBlock) : List SshHost :=
  names.filterMap (fun hn =>
    if hasWildcard hn then none
    else some { name := String.mk hn, hostname := b.hostname, user := b.user,
                port := b.port, identity_file := b.identityfile })

structure ParseSt where
  hosts : List SshHost
  names : List (List Char)
  block : ConfBlock
deriving DecidableEq, Repr

/-- `flush()` (lines 111-128): does nothing when no host block is pending,
otherwise emits the block's hosts and resets `current_names`/`current_block`. -/
def flushSt (st : ParseSt) : ParseSt :=
  if st.names.isEmpty then st
  else { hosts := st.hosts ++ flushBlock st.names st.block, names := [], block := {} }

/-- The loop body of `parse_ssh_config` (lines 131-149): skip blank/comment
lines, recognize `Host` lines on the unstripped line (flushing the previous
block), otherwise try the key/value pattern on the stripped line and store
supported keys (lowercased). -/
def parseLine (st : ParseSt) (line : List Char) : ParseSt :=
  let stripped := pyStrip line
  if stripped.isEmpty || stripped.headD ' ' == '#' then st
  else
    match hostLinePatterns line with
    | some toks =>
      let st' := flushSt st
      { st' with names := toks }
    | none =>
      match kvMatch stripped with
      | some kv => { st with block := setKey st.block (kv.1.map lowerChar) (String.mk kv.2) }
      | none => st

/-- `parse_ssh_config` (lines 106-150) on the list of lines of a file. -/
def parse_ssh_config (lines : List String) : List SshHost :=
  (flushSt (lines.foldl (fun st l => parseLine st l.data) ⟨[], [], {}⟩)).hosts

/-! ## JSON-like values for the profile list

Profile-list entries are arbitrary JSON values (the settings document is
schema-unconstrained).  Python dicts are association structures; the dicts
this program reads and writes have unique keys, and lookup takes the first
matching key.  Equality is structural (the Python cross-type equalities
`True == 1` etc. are never observable here: the code only compares name
values against strings, and strings only equal strings in Python too). -/

mutual
inductive JVal where
  | str : String → JVal
  | bool : Bool → JVal
  | num : Int → JVal
  | null : JVal
  | dict : JObj → JVal
  | arr : JArr → JVal
deriving DecidableEq, Repr
inductive JObj where
  | nil : JObj
  | cons : String → JVal → JObj → JObj
deriving DecidableEq, Repr
inductive JArr where
  | anil : JArr
  | acons : JVal → JArr → JArr
deriving DecidableEq, Repr
end

/-- Python's `d.get(key)` (`None` becomes `none`). -/
def JObj.get : JObj → String → Option JVal
  | .nil, _ => none
  | .cons k v t, key => if k = key then some v else JObj.get t key

/-- Python truthiness of a JSON value. -/
def jTruthy : JVal → Bool
  | .str s => !(s == "")
  | .bool b => b
  | .num n => !(n == 0)
  | .null => false
  | .dict o => match o with | .nil => false | .cons _ _ _ => true
  | .arr a => match a with | .anil => false | .acons _ _ => true

/-- The `"name"` value of a dict entry, when present (`None` otherwise). -/
def entryName (p : JVal) : Option JVal :=
  match p with
  | .dict o => o.get "name"
  | _ => none

/-- Truthy name of an entry: `some v` exactly when the entry is a dict whose
`"name"` value `v` exists and is truthy — the condition
`isinstance(p, dict) and p.get("name")` of line 198. -/
def tn (p : JVal) : Option JVal :=
  match p with
  | .dict o =>
    match o.get "name" with
    | some v => if jTruthy v then some v else none
    | none => none
  | _ => none

/-- The association list underlying the dict comprehension
`{p.get("name"): i for i, p in enumerate(profiles) if isinstance(p, dict) and p.get("name")}`
(line 198), with `j` the index of the first element. -/
def bnAux (j : Nat) (l : List JVal) : List (JVal × Nat) :=
  match l with
  | [] => []
  | p :: t =>
    (match tn p with
     | some v => [(v, j)]
     | none => []) ++ bnAux (j + 1) t

def buildByName (l : List JVal) : List (JVal × Nat) := bnAux 0 l

/-- Generic "last hit wins" fold: the value extracted from the last element
on which the extraction succeeds.  This is the shape both of lookup in a
Python dict built from an in-order binding list (later bindings overwrite
earlier ones) and of last-occurrence reasoning on host lists. -/
def lastPick (f : α → Option β) (l : List α) : Option β :=
  l.foldl (fun acc x => match f x with | some b => some b | none => acc) none

/-- Lookup in the `by_name` dict: the last binding for a key wins. -/
def assocLast (m : List (JVal × Nat)) (k : JVal) : Option Nat :=
  lastPick (fun e => if e.1 == k then some e.2 else none) m

/-- The profile object built for a host by `upsert_profiles` (lines 199-205):
exactly the four keys `name`, `commandline`, `guid`, `hidden`, in that
order, with the braced deterministic guid and `hidden = False`. -/
def profileFor (h : SshHost) : JVal :=
  JVal.dict (JObj.cons "name" (JVal.str h.name)
    (JObj.cons "commandline" (JVal.str h.commandline)
      (JObj.cons "guid" (JVal.str ("\x7b" ++ h.guid ++ "\x7d"))
        (JObj.cons "hidden" (JVal.bool false) JObj.nil))))

/-- One iteration of the `for host in ssh_hosts` loop of `upsert_profiles`
(lines 199-210): replace at the index recorded in `by_name`, else append. -/
def upsertStep (bn : List (JVal × Nat)) (ps : List JVal) (h : SshHost) : List JVal :=
  match assocLast bn (JVal.str h.name) with
  | some i => ps.set i (profileFor h)
  | none => ps ++ [profileFor h]

def upsertGo (bn : List (JVal × Nat)) (hosts : List SshHost) (ps : List JVal) : List JVal :=
  hosts.foldl (upsertStep bn) ps

/-- `upsert_profiles(profiles, ssh_hosts)` (lines 197-210).  `by_name` is
computed once, up front, from the incoming list; the mutated list is the
return value here.  (The unused `source_tag` parameter is omitted.)  Inputs
whose dict entries have unhashable `"name"` values would raise in Python
while building `by_name`; the embedding treats every value as a key. -/
def upsert_profiles (ps : List JVal) (hosts : List SshHost) : List JVal :=
  upsertGo (buildByName ps) hosts ps

/-- The keep-condition of `remove_profiles` (lines 213-238) for one entry,
generalized over the identity computation `idfn` (in the source,
`SshHost(name=n).guid()` inside `try/except`; `idfn n = none` models the
computation raising, in which case the entry is kept). -/
def removeKeepG (idfn : String → Option String) (names : List String) (p : JVal) : Bool :=
  match p with
  | JVal.dict o =>
    let nIn :=
      match JObj.get o "name" with
      | some (JVal.str s) => names.contains s
      | _ => false
    if nIn then false
    else if names.isEmpty then
      match JObj.get o "name", JObj.get o "guid" with
      | some (JVal.str ns), some (JVal.str gs) =>
        match idfn ns with
        | some e => if gs = "\x7b" ++ e ++ "\x7d" then false else true
        | none => true
      | _, _ => true
    else true
  | _ => true

def remove_profilesG (idfn : String → Option String) (ps : List JVal)
    (hosts : List SshHost) : List JVal :=
  ps.filter (removeKeepG idfn (hosts.map (fun h => h.name)))

/-- `remove_profiles(profiles, ssh_hosts)` (lines 213-238): keep non-dict
entries; drop dicts whose name is among the hosts' names; when no names were
given, drop dicts whose `guid` equals the braced deterministic guid derived
from their own `name`.  Building `keep` and assigning `profiles[:] = keep`
is list filtering. -/
def remove_profiles (ps : List JVal) (hosts : List SshHost) : List JVal :=
  remove_profilesG (fun n => some (SshHost.guid ⟨n, none, none, none, none⟩)) ps hosts

/-! ## `main` control flow (lines 279-311)

Argument parsing, logging, and the filesystem are outside the embedding;
the environment supplies what `main` would read (the lines of each
discovered config file, and the profile list of the loaded settings
document), and the produced write effects are recorded. -/

structure CliArgs where
  add : Bool
  remove : Bool
deriving DecidableEq, Repr

structure WorldEnv where
  configFiles : List (List String)
  settingsProfiles : List JVal

inductive FsEffect where
  | save : List JVal → FsEffect
deriving DecidableEq, Repr

/-- The decision structure of `main` after argument parsing (lines 283-311):
return 2 immediately (no settings load, no reconciliation, no save) when
neither `--add` nor `--remove` was given; otherwise parse all hosts, run
remove then add as requested on the profile list, and save. -/
def mainModel (args : CliArgs) (env : WorldEnv) : Int × List FsEffect :=
  if !args.add && !args.remove then (2, [])
  else
    let allHosts := env.configFiles.foldl (fun acc f => acc ++ parse_ssh_config f) []
    let profiles := env.settingsProfiles
    let profiles := if args.remove then remove_profiles profiles allHosts else profiles
    let profiles := if args.add then upsert_profiles profiles allHosts else profiles
    (0, [FsEffect.save profiles])

/-! ## Helper notions shared by several results -/

def isDictB : JVal → Bool
  | .dict _ => true
  | _ => false

/-- The `"name"` values of the dict entries of a profile list that carry a
`"name"` key, in order. -/
def dictNames (l : List JVal) : List JVal := l.filterMap entryName

/-- Characters that `\s` (ASCII) matches are not word characters. -/
theorem isPyWord_of_isPySpace {c : Char} (h : isPySpace c = true) : isPyWord c = false := by
  simp only [isPySpace, Bool.or_eq_true, decide_eq_true_eq] at h
  rcases h with ((((h | h) | h) | h) | h) | h <;> subst h <;> decide

theorem not_h_of_isPySpace {c : Char} (h : isPySpace c = true) :
    ((c = 'h' || c = 'H') = false) := by
  simp only [isPySpace, Bool.or_eq_true, decide_eq_true_eq] at h
  rcases h with ((((h | h) | h) | h) | h) | h <;> subst h <;> decide

set_option maxRecDepth 200000

/-- Pointwise form of the keep-condition when no host names are given. -/
theorem removeKeepG_nil_eq (idfn : String → Option String) (p : JVal) :
    removeKeepG idfn [] p = (match p with
      | JVal.dict o =>
        match JObj.get o "name", JObj.get o "guid" with
        | some (JVal.str n), some (JVal.str g) =>
          match idfn n with
          | some e => !(g == "\x7b" ++ e ++ "\x7d")
          | none => true
        | _, _ => true
      | _ => true) := by
  rcases p with s | b | n | _ | o | a <;> try rfl
  rcases hn : JObj.get o "name" with _ | v
  · simp [removeKeepG, hn]
  · rcases hg : JObj.get o "guid" with _ | w
    · rcases v with s | b | n | _ | o2 | a2 <;> simp [removeKeepG, hn, hg]
    · rcases v with s | b | n | _ | o2 | a2 <;>
        rcases w with s2 | b2 | n2 | _ | o3 | a3 <;> simp [removeKeepG, hn, hg]
      rcases hi : idfn s with _ | e
      · simp [hi]
      · simp only [hi]
        by_cases hgg : s2 = "\x7b" ++ e ++ "\x7d" <;> simp [hgg]

/-- C4: with an empty host list, `remove_profiles` removes exactly the dict
profiles whose string `guid` equals the braced deterministic identity
computed from their own string `name`; dicts whose `guid` is absent,
non-string or different, and dicts whose `name` is absent or non-string,
and all non-dict entries, are preserved. -/
theorem remove_empty_removes_exactly_tool_guids (P : List JVal) :
    remove_profiles P [] = P.filter (fun p =>
      match p with
      | JVal.dict o =>
        match JObj.get o "name", JObj.get o "guid" with
        | some (JVal.str n), some (JVal.str g) =>
          !(g == "\x7b" ++ SshHost.guid ⟨n, none, none, none, none⟩ ++ "\x7d")
        | _, _ => true
      | _ => true) := by
  unfold remove_profiles remove_profilesG
  apply List.filter_congr
  intro p _
  rw [show ([] : List SshHost).map (fun h => h.name) = [] from rfl]
  rw [removeKeepG_nil_eq]

/-- C5: `remove_profiles` keeps every non-dict (malformed/foreign) entry
unchanged, with its multiplicity and relative order, for every host list;
and in the generalized reconciler, where the identity computation may fail
(`idfn ns = none` models `SshHost(name=ns).guid()` raising inside the
source's `try/except`), a dict entry whose identity computation fails is
kept. -/
theorem remove_keeps_nonrecords_and_error_entries :
    (∀ (P : List JVal) (H : List SshHost),
        (remove_profiles P H).filter (fun p => !isDictB p) =
          P.filter (fun p => !isDictB p)) ∧
    (∀ (idfn : String → Option String) (P : List JVal) (o : JObj) (ns : String),
        JObj.get o "name" = some (JVal.str ns) → idfn ns = none →
        JVal.dict o ∈ P → JVal.dict o ∈ remove_profilesG idfn P []) := by
  constructor
  · intro P H
    unfold remove_profiles remove_profilesG
    rw [List.filter_filter]
    apply List.filter_congr
    intro p _
    cases p <;> simp [removeKeepG, isDictB]
  · intro idfn P o ns hn hid hmem
    unfold remove_profilesG
    rw [List.mem_filter]
    refine ⟨hmem, ?_⟩
    rw [show ([] : List SshHost).map (fun h => h.name) = [] from rfl]
    rw [removeKeepG_nil_eq]
    rcases hg : JObj.get o "guid" with _ | w
    · simp [hn, hg]
    · cases w <;> simp [hn, hg, hid]

/-- Modelled from the claim's words for C6: the command line as the
space-join of tokens where a field counts as present exactly when the
optional holds a value. -/
def commandlineBySome (h : SshHost) : String :=
  String.intercalate " "
    (["ssh"] ++ (match h.port with | some p => ["-p", p] | none => [])
      ++ (match h.identity_file with | some i => ["-i", i] | none => [])
      ++ [(match h.user with | some u => u ++ "@" | none => "") ++
          (match h.hostname with | some hn => hn | none => h.name)])

/-- Counterexample to C6 as stated: with `port` present but equal to the
empty string, the code omits the `-p` flag (Python truthiness), while the
claim's reading of "present" inserts it. -/
theorem commandline_present_cx :
    SshHost.commandline ⟨"n", none, none, some "", none⟩ ≠
      commandlineBySome ⟨"n", none, none, some "", none⟩ := by decide

theorem commandline_tokens (h : SshHost) :
    h.commandline = String.intercalate " "
      (["ssh"] ++ (if optTruthy h.port then ["-p", h.port.getD ""] else [])
        ++ (if optTruthy h.identity_file then ["-i", h.identity_file.getD ""] else [])
        ++ [(if optTruthy h.user then h.user.getD "" ++ "@" else "") ++
            (if optTruthy h.hostname then h.hostname.getD "" else h.name)]) := by
  obtain ⟨n, ho, u, p, idf⟩ := h
  simp only [SshHost.commandline]
  split_ifs <;> simp [List.append_assoc, String.append_assoc]

/-- C6, amended: the command line is the space-join of `ssh`, `-p port` if
`port` is present with a nonempty value, `-i identityFile` if present with a
nonempty value, then the target (`hostname` if present and nonempty, else
`name`, prefixed `user@` if `user` is present and nonempty); the two
concrete examples of the claim hold as stated. -/
theorem commandline_tokens_full :
    (∀ h : SshHost, h.commandline = String.intercalate " "
      (["ssh"] ++ (if optTruthy h.port then ["-p", h.port.getD ""] else [])
        ++ (if optTruthy h.identity_file then ["-i", h.identity_file.getD ""] else [])
        ++ [(if optTruthy h.user then h.user.getD "" ++ "@" else "") ++
            (if optTruthy h.hostname then h.hostname.getD "" else h.name)])) ∧
    SshHost.commandline ⟨"Server01", some "1.2.3.4", some "alice", some "2222",
        some "/home/alice/.ssh/id_rsa"⟩ =
      "ssh -p 2222 -i /home/alice/.ssh/id_rsa alice@1.2.3.4" ∧
    SshHost.commandline ⟨"Server02", some "example.com", none, none, none⟩ =
      "ssh example.com" :=
  ⟨commandline_tokens, by decide, by decide⟩

/-- C7: flushing a host block emits exactly one record per pattern token
without `*`/`?`, carrying that token as name and the block's stored
directive values, and none for wildcard tokens; `Host web1 web2` with
`User bob` parses to two records with user bob, and an all-wildcard block
parses to no records. -/
theorem parse_flush_per_token :
    (∀ (names : List (List Char)) (b : ConfBlock),
       flushBlock names b = (names.filter (fun t => !hasWildcard t)).map
         (fun t => { name := String.mk t, hostname := b.hostname, user := b.user,
                     port := b.port, identity_file := b.identityfile })) ∧
    parse_ssh_config ["Host web1 web2", "    User bob"] =
      [{ name := "web1", user := some "bob" }, { name := "web2", user := some "bob" }] ∧
    parse_ssh_config ["Host * w?ld", "    User bob"] = [] := by
  refine ⟨?_, by decide, by decide⟩
  intro names b
  induction names with
  | nil => rfl
  | cons hn t ih =>
    by_cases hw : hasWildcard hn = true <;>
      simp [flushBlock, List.filterMap_cons, List.filter_cons, hw] <;>
      simpa [flushBlock] using ih

/-- C8: with neither the add flag nor the remove flag selected, `main`
returns exit code 2 (distinct from the success value 0) immediately,
producing no filesystem effect (no settings load, reconciliation, or
save is reached). -/
theorem main_requires_action_flag (args : CliArgs) (env : WorldEnv)
    (ha : args.add = false) (hr : args.remove = false) :
    mainModel args env = (2, []) ∧ (mainModel args env).1 ≠ 0 := by
  have h : mainModel args env = (2, []) := by simp [mainModel, ha, hr]
  exact ⟨h, by rw [h]; decide⟩

theorem main_requires_action_flag_witness :
    mainModel ⟨false, false⟩ ⟨[], []⟩ = (2, []) ∧
      (mainModel ⟨false, false⟩ ⟨[], []⟩).1 ≠ 0 :=
  main_requires_action_flag ⟨false, false⟩ ⟨[], []⟩ rfl rfl

theorem lowerChar_hostKeyword {c1 c2 c3 c4 : Char}
    (h1 : (c1 = 'h' || c1 = 'H') = true) (h2 : (c2 = 'o' || c2 = 'O') = true)
    (h3 : (c3 = 's' || c3 = 'S') = true) (h4 : (c4 = 't' || c4 = 'T') = true) :
    [c1, c2, c3, c4].map lowerChar = "host".data := by
  simp only [Bool.or_eq_true, decide_eq_true_eq] at h1 h2 h3 h4
  rcases h1 with h1 | h1 <;> rcases h2 with h2 | h2 <;> rcases h3 with h3 | h3 <;>
    rcases h4 with h4 | h4 <;> subst h1 <;> subst h2 <;> subst h3 <;> subst h4 <;> decide

theorem isPyWord_hostKeyword {c1 c2 c3 c4 : Char}
    (h1 : (c1 = 'h' || c1 = 'H') = true) (h2 : (c2 = 'o' || c2 = 'O') = true)
    (h3 : (c3 = 's' || c3 = 'S') = true) (h4 : (c4 = 't' || c4 = 'T') = true) :
    isPyWord c1 = true ∧ isPyWord c2 = true ∧ isPyWord c3 = true ∧ isPyWord c4 = true := by
  simp only [Bool.or_eq_true, decide_eq_true_eq] at h1 h2 h3 h4
  rcases h1 with h1 | h1 <;> rcases h2 with h2 | h2 <;> rcases h3 with h3 | h3 <;>
    rcases h4 with h4 | h4 <;> subst h1 <;> subst h2 <;> subst h3 <;> subst h4 <;> decide

theorem setKey_host (b : ConfBlock) (v : String) : setKey b "host".data v = b := by
  simp [setKey]

/-- C10: an indented `Host` line is never matched by the anchored host-line
pattern, and — because the lowercased key `host` is not a supported directive
key — such a line leaves the parse state completely unchanged. -/
theorem indented_host_line_ignored (st : ParseSt) (line : List Char) (c : Char)
    (hhead : line.head? = some c) (hsp : isPySpace c = true) :
    hostLinePatterns line = none ∧
    (hostLinePatterns (pyStrip line) ≠ none → parseLine st line = st) := by
  have hnone : hostLinePatterns line = none := by
    rcases line with _ | ⟨c1, rest⟩
    · simp at hhead
    · have hc : c1 = c := by simpa using hhead
      subst hc
      rcases rest with _ | ⟨c2, _ | ⟨c3, _ | ⟨c4, r⟩⟩⟩ <;>
        simp [hostLinePatterns, matchHostKeyword, not_h_of_isPySpace hsp]
  refine ⟨hnone, fun hne => ?_⟩
  rcases hs : pyStrip line with _ | ⟨d1, _ | ⟨d2, _ | ⟨d3, _ | ⟨d4, _ | ⟨d5, r'⟩⟩⟩⟩⟩ <;>
    rw [hs] at hne <;>
    simp only [hostLinePatterns, matchHostKeyword, ne_eq] at hne
  · simp at hne
  · simp at hne
  · simp at hne
  · simp at hne
  · -- exactly four characters: `matchHostKeyword` yields `some []`,
    -- which the outer match sends to `none`
    by_cases hb : ((d1 = 'h' || d1 = 'H') && (d2 = 'o' || d2 = 'O') &&
        (d3 = 's' || d3 = 'S') && (d4 = 't' || d4 = 'T')) = true <;> simp [hb] at hne
  · by_cases hb : ((d1 = 'h' || d1 = 'H') && (d2 = 'o' || d2 = 'O') &&
        (d3 = 's' || d3 = 'S') && (d4 = 't' || d4 = 'T')) = true
    · rw [if_pos hb] at hne
      by_cases hcond : (isPySpace d5 && !r'.isEmpty) = true
      · -- the interesting case: the stripped line is a host line
        obtain ⟨hb12, hb3⟩ := Bool.and_eq_true_iff.mp hb
        obtain ⟨hb1, hb2⟩ := Bool.and_eq_true_iff.mp hb12
        obtain ⟨h1, h2⟩ := Bool.and_eq_true_iff.mp hb1
        obtain ⟨hd5, hr'⟩ := Bool.and_eq_true_iff.mp hcond
        obtain ⟨w1, w2, w3, w4⟩ := isPyWord_hostKeyword h1 h2 hb2 hb3
        have hkv : kvMatch (pyStrip line) =
            some ([d1, d2, d3, d4], pyStrip (d5 :: r')) := by
          rw [hs]
          simp only [kvMatch, List.takeWhile, List.dropWhile, w1, w2, w3, w4,
            isPyWord_of_isPySpace hd5]
          simp [hd5, hr']
        have hd1 : (d1 == '#') = false := by
          simp only [Bool.or_eq_true, decide_eq_true_eq] at h1
          rcases h1 with h | h <;> subst h <;> decide
        show parseLine st line = st
        unfold parseLine
        rw [hnone]
        simp only [hs, List.isEmpty_cons, List.headD_cons, hd1, Bool.or_false,
          Bool.false_eq_true, if_false]
        rw [hs] at hkv
        rw [hkv]
        simp only []
        rw [lowerChar_hostKeyword h1 h2 hb2 hb3, setKey_host]
      · simp [hcond] at hne
    · simp [hb] at hne

theorem indented_host_line_ignored_witness :
    ("  Host evil".data.head? = some ' ') ∧ (isPySpace ' ' = true) ∧
    (hostLinePatterns "  Host evil".data = none ∧
     (hostLinePatterns (pyStrip "  Host evil".data) ≠ none →
        parseLine ⟨[], [], ⟨none, none, none, none⟩⟩ "  Host evil".data =
          ⟨[], [], ⟨none, none, none, none⟩⟩)) :=
  ⟨by decide, by decide,
   indented_host_line_ignored ⟨[], [], ⟨none, none, none, none⟩⟩ "  Host evil".data ' '
     (by decide) (by decide)⟩

theorem remove_keeps_error_entries_witness :
    (JObj.get (JObj.cons "name" (JVal.str "A") JObj.nil) "name" = some (JVal.str "A")) ∧
    ((fun (_ : String) => (none : Option String)) "A" = none) ∧
    (JVal.dict (JObj.cons "name" (JVal.str "A") JObj.nil) ∈
       ([JVal.dict (JObj.cons "name" (JVal.str "A") JObj.nil)] : List JVal)) ∧
    JVal.dict (JObj.cons "name" (JVal.str "A") JObj.nil) ∈
      remove_profilesG (fun _ => none)
        [JVal.dict (JObj.cons "name" (JVal.str "A") JObj.nil)] [] :=
  ⟨by decide, rfl, by decide,
   remove_keeps_nonrecords_and_error_entries.2 (fun _ => none)
     [JVal.dict (JObj.cons "name" (JVal.str "A") JObj.nil)]
     (JObj.cons "name" (JVal.str "A") JObj.nil) "A" (by decide) rfl (by decide)⟩

/-- Counterexample to C1 as stated: on a profile list that already contains
two dicts named `"A"`, upserting a host named `"A"` leaves two dicts with
that name (the replacement happens at the last occurrence; the first
occurrence survives). -/
theorem upsert_dup_name_cx :
    ¬ (dictNames (upsert_profiles
        [JVal.dict (JObj.cons "name" (JVal.str "A") JObj.nil),
         JVal.dict (JObj.cons "name" (JVal.str "A") JObj.nil)]
        [⟨"A", none, none, none, none⟩])).Nodup := by decide

def toolOwnedA : JVal :=
  JVal.dict (JObj.cons "name" (JVal.str "A")
    (JObj.cons "guid" (JVal.str ("\x7b" ++ SshHost.guid ⟨"A", none, none, none, none⟩ ++ "\x7d"))
      JObj.nil))

/-- Counterexample to C2 as stated: with the empty host list, the
upsert-then-remove round trip deletes a pre-existing profile whose name is
not among the (empty set of) host names, because its guid matches the
deterministic identity of its own name. -/
theorem upsert_remove_empty_cx :
    ¬ toolOwnedA ∈ remove_profiles (upsert_profiles [toolOwnedA] []) [] ∧
    toolOwnedA ∈ ([toolOwnedA] : List JVal) := by
  constructor
  · decide
  · simp

/-- Counterexample to C3 as stated: a host whose name is the empty string is
appended again on the second application (the empty string is falsy, so the
appended profile is never indexed by `by_name`). -/
theorem upsert_twice_empty_name_cx :
    upsert_profiles (upsert_profiles [] [⟨"", none, none, none, none⟩])
        [⟨"", none, none, none, none⟩] ≠
      upsert_profiles [] [⟨"", none, none, none, none⟩] := by
  intro h
  exact absurd (congrArg List.length h) (by decide)


/-! ### Generic "last hit wins" fold, the shape shared by the `by_name` dict
lookup of `upsert_profiles` and by last-occurrence reasoning on host lists. -/

theorem lastPick_acc (f : α → Option β) (l : List α) : ∀ acc : Option β,
    l.foldl (fun a x => match f x with | some b => some b | none => a) acc =
      match lastPick f l with | some b => some b | none => acc := by
  induction l with
  | nil => intro acc; rfl
  | cons x t ih =>
    intro acc
    rw [List.foldl_cons, ih]
    have hx : lastPick f (x :: t) =
        match lastPick f t with
        | some b => some b
        | none => match f x with | some b => some b | none => none :=
      ih (match f x with | some b => some b | none => none)
    rw [hx]
    cases lastPick f t <;> cases f x <;> rfl

theorem lastPick_cons (f : α → Option β) (x : α) (t : List α) :
    lastPick f (x :: t) =
      match lastPick f t with | some b => some b | none => f x := by
  have hx : lastPick f (x :: t) =
      match lastPick f t with
      | some b => some b
      | none => match f x with | some b => some b | none => none :=
    lastPick_acc f t (match f x with | some b => some b | none => none)
  rw [hx]
  cases lastPick f t <;> cases f x <;> rfl

theorem lastPick_append (f : α → Option β) (a b : List α) :
    lastPick f (a ++ b) =
      match lastPick f b with | some r => some r | none => lastPick f a := by
  induction a with
  | nil =>
    rw [List.nil_append]
    cases h : lastPick f b <;> simp [h, lastPick]
  | cons x t ih =>
    rw [List.cons_append, lastPick_cons, ih, lastPick_cons]
    cases lastPick f b <;> cases lastPick f t <;> cases f x <;> rfl

theorem lastPick_eq_none_iff (f : α → Option β) (l : List α) :
    lastPick f l = none ↔ ∀ x ∈ l, f x = none := by
  induction l with
  | nil => simp [lastPick]
  | cons x t ih =>
    rw [lastPick_cons]
    cases h : lastPick f t with
    | none =>
      have hall : ∀ y ∈ t, f y = none := ih.mp h
      cases hfx : f x with
      | none =>
        simp only []
        constructor
        · intro _ y hy
          rcases List.mem_cons.mp hy with rfl | hy'
          · exact hfx
          · exact hall y hy'
        · intro _; trivial
      | some b =>
        simp only []
        constructor
        · intro hc; cases hc
        · intro hcontra
          have hx := hcontra x (List.mem_cons_self x t)
          rw [hfx] at hx; cases hx
    | some b =>
      simp only []
      constructor
      · intro hc; cases hc
      · intro hall
        have hnone : lastPick f t = none := ih.mpr
          (fun y hy => hall y (List.mem_cons_of_mem _ hy))
        rw [h] at hnone; cases hnone

theorem lastPick_some_mem {f : α → Option β} {l : List α} {b : β}
    (h : lastPick f l = some b) : ∃ x ∈ l, f x = some b := by
  induction l with
  | nil => cases h
  | cons x t ih =>
    rw [lastPick_cons] at h
    cases ht : lastPick f t with
    | some c =>
      rw [ht] at h
      obtain ⟨y, hy, hfy⟩ := ih (ht.trans (by cases h; rfl))
      exact ⟨y, List.mem_cons_of_mem _ hy, by cases h; exact hfy⟩
    | none =>
      rw [ht] at h
      exact ⟨x, List.mem_cons_self x t, h⟩

theorem lastPick_congr {f g : α → Option β} {l : List α}
    (h : ∀ x ∈ l, f x = g x) : lastPick f l = lastPick g l := by
  induction l with
  | nil => rfl
  | cons x t ih =>
    rw [lastPick_cons, lastPick_cons, ih (fun y hy => h y (List.mem_cons_of_mem _ hy)),
      h x (List.mem_cons_self x t)]

theorem lastPick_filter {f : α → Option β} {q : α → Bool} {l : List α}
    (h : ∀ x ∈ l, f x ≠ none → q x = true) :
    lastPick f (l.filter q) = lastPick f l := by
  induction l with
  | nil => rfl
  | cons x t ih =>
    have ht := ih (fun y hy hf => h y (List.mem_cons_of_mem _ hy) hf)
    by_cases hq : q x = true
    · rw [List.filter_cons_of_pos hq, lastPick_cons, lastPick_cons, ht]
    · rw [List.filter_cons_of_neg (by simpa using hq), ht, lastPick_cons]
      have hfx : f x = none := by
        by_cases hfx : f x = none
        · exact hfx
        · exact absurd (h x (List.mem_cons_self x t) hfx) hq
      rw [hfx]
      cases lastPick f t <;> rfl

theorem lastPick_of_max {f : α → Option β} {l : List α} {q : Nat} {x : α} {b : β}
    (hq : l[q]? = some x) (hx : f x = some b)
    (hmax : ∀ m y, l[m]? = some y → f y ≠ none → m ≤ q) :
    lastPick f l = some b := by
  induction l generalizing q with
  | nil => simp at hq
  | cons z t ih =>
    rw [lastPick_cons]
    cases q with
    | zero =>
      simp only [List.getElem?_cons_zero, Option.some.injEq] at hq
      subst hq
      have ht : lastPick f t = none := by
        rw [lastPick_eq_none_iff]
        intro y hy
        by_cases hfy : f y = none
        · exact hfy
        · obtain ⟨m, hm⟩ := List.mem_iff_getElem?.mp hy
          have hle := hmax (m + 1) y (by simpa using hm) hfy
          exact absurd hle (by omega)
      rw [ht, hx]
    | succ q' =>
      simp only [List.getElem?_cons_succ] at hq
      have := ih hq (fun m y hm hf => by
        have := hmax (m + 1) y (by simpa using hm) hf
        omega)
      rw [this]

/-! ### Index-style view of the `by_name` lookup -/

/-- Recursive description of "the index of the last entry of `l` whose truthy
name is `k`", offset by `j`. -/
def lkAux (k : JVal) (j : Nat) (l : List JVal) : Option Nat :=
  match l with
  | [] => none
  | p :: t =>
    match lkAux k (j + 1) t with
    | some r => some r
    | none => if tn p == some k then some j else none

theorem lkAux_cons (k p : JVal) (t : List JVal) (j : Nat) :
    lkAux k j (p :: t) =
      match lkAux k (j + 1) t with
      | some r => some r
      | none => if tn p == some k then some j else none := rfl

theorem assocLast_bnAux (k : JVal) (l : List JVal) : ∀ j : Nat,
    assocLast (bnAux j l) k = lkAux k j l := by
  induction l with
  | nil => intro j; rfl
  | cons p t ih =>
    intro j
    show assocLast ((match tn p with | some v => [(v, j)] | none => []) ++ bnAux (j + 1) t) k
      = lkAux k j (p :: t)
    unfold assocLast
    rw [lastPick_append]
    have htail : lastPick (fun e => if e.1 == k then some e.2 else none) (bnAux (j + 1) t) =
        lkAux k (j + 1) t := ih (j + 1)
    rw [htail, lkAux_cons]
    cases hlk : lkAux k (j + 1) t with
    | some r => rfl
    | none =>
      cases htn : tn p with
      | some v =>
        simp only []
        by_cases hv : (v == k) = true
        · have h1 : (some v == some k) = true := by simpa using hv
          have hvk : v = k := by simpa using hv
          rw [h1]
          simp [lastPick, hvk]
        · have hv' : (v == k) = false := by simpa using hv
          have h1 : (some v == some k) = false := by simpa using hv'
          have hvk : ¬ v = k := by simpa using hv'
          rw [h1]
          simp [lastPick, hvk]
      | none =>
        simp only []
        rfl

theorem assocLast_buildByName (k : JVal) (l : List JVal) :
    assocLast (buildByName l) k = lkAux k 0 l :=
  assocLast_bnAux k l 0

theorem lkAux_some {k : JVal} {l : List JVal} {i j : Nat}
    (h : lkAux k j l = some i) :
    j ≤ i ∧ i - j < l.length ∧ ∃ p, l[i - j]? = some p ∧ tn p = some k := by
  induction l generalizing j with
  | nil => cases h
  | cons p t ih =>
    unfold lkAux at h
    cases ht : lkAux k (j + 1) t with
    | some r =>
      rw [ht] at h
      cases h
      obtain ⟨hj, hlt, q, hq, htq⟩ := ih ht
      refine ⟨by omega, by simp; omega, q, ?_, htq⟩
      have : i - j = (i - (j + 1)) + 1 := by omega
      rw [this, List.getElem?_cons_succ]
      exact hq
    | none =>
      rw [ht] at h
      by_cases htn : (tn p == some k) = true
      · rw [if_pos htn] at h
        cases h
        refine ⟨le_refl _, by simp, p, ?_, by simpa using htn⟩
        simp
      · rw [if_neg htn] at h
        cases h

theorem lkAux_none_iff {k : JVal} {l : List JVal} {j : Nat} :
    lkAux k j l = none ↔ ∀ p ∈ l, tn p ≠ some k := by
  induction l generalizing j with
  | nil => simp [lkAux]
  | cons p t ih =>
    unfold lkAux
    cases ht : lkAux k (j + 1) t with
    | some r =>
      simp only []
      constructor
      · intro hc; cases hc
      · intro hall
        have : lkAux k (j + 1) t = none := (@ih (j + 1)).mpr
          (fun q hq => hall q (List.mem_cons_of_mem _ hq))
        rw [ht] at this; cases this
    | none =>
      have hall : ∀ q ∈ t, tn q ≠ some k := (@ih (j + 1)).mp ht
      by_cases htn : (tn p == some k) = true
      · rw [if_pos htn]
        constructor
        · intro hc; cases hc
        · intro hcontra
          exact absurd (by simpa using htn) (hcontra p (List.mem_cons_self p t))
      · rw [if_neg htn]
        constructor
        · intro _ q hq
          rcases List.mem_cons.mp hq with rfl | hq'
          · intro hc; exact htn (by simp [hc])
          · exact hall q hq'
        · intro _; rfl

theorem lkAux_last {k : JVal} {l : List JVal} {i j : Nat}
    (h : lkAux k j l = some i) :
    ∀ m p, l[m]? = some p → tn p = some k → j + m ≤ i := by
  induction l generalizing j with
  | nil => intro m p hm htq; simp at hm
  | cons p t ih =>
    intro m q hm htq
    unfold lkAux at h
    cases ht : lkAux k (j + 1) t with
    | some r =>
      rw [ht] at h
      cases h
      cases m with
      | zero =>
        obtain ⟨hj, _, _⟩ := lkAux_some ht
        omega
      | succ m' =>
        rw [List.getElem?_cons_succ] at hm
        have := ih ht m' q hm htq
        omega
    | none =>
      rw [ht] at h
      by_cases htn : (tn p == some k) = true
      · rw [if_pos htn] at h
        cases h
        cases m with
        | zero => omega
        | succ m' =>
          rw [List.getElem?_cons_succ] at hm
          have : tn q ≠ some k := lkAux_none_iff.mp ht q (List.mem_iff_getElem?.mpr ⟨m', hm⟩)
          exact absurd htq this
      · rw [if_neg htn] at h
        cases h

theorem lkAux_of_mem {k : JVal} {l : List JVal} {p : JVal} {j : Nat}
    (hp : p ∈ l) (htn : tn p = some k) : lkAux k j l ≠ none := by
  intro hc
  exact lkAux_none_iff.mp hc p hp htn

theorem lkAux_mapEq {k : JVal} {j : Nat} : ∀ {l₁ l₂ : List JVal},
    l₁.map tn = l₂.map tn → lkAux k j l₁ = lkAux k j l₂ := by
  intro l₁
  induction l₁ generalizing j with
  | nil =>
    intro l₂ h
    cases l₂ with
    | nil => rfl
    | cons q t₂ => cases h
  | cons p t₁ ih =>
    intro l₂ h
    cases l₂ with
    | nil => cases h
    | cons q t₂ =>
      simp only [List.map_cons, List.cons.injEq] at h
      obtain ⟨hpq, htt⟩ := h
      unfold lkAux
      rw [@ih (j + 1) t₂ htt, hpq]

theorem lkAux_append {k : JVal} (a b : List JVal) : ∀ j : Nat,
    lkAux k j (a ++ b) =
      match lkAux k (j + a.length) b with
      | some r => some r
      | none => lkAux k j a := by
  induction a with
  | nil =>
    intro j
    simp only [List.nil_append, List.length_nil, Nat.add_zero]
    cases lkAux k j b <;> rfl
  | cons p t ih =>
    intro j
    rw [List.cons_append, lkAux_cons, ih (j + 1)]
    have harith : j + 1 + t.length = j + (t.length + 1) := by omega
    rw [harith]
    simp only [List.length_cons]
    conv_rhs => rw [lkAux_cons]
    cases lkAux k (j + (t.length + 1)) b <;> cases lkAux k (j + 1) t <;> rfl

/-! ### Indexed map, for describing position-wise what `upsert_profiles`
does to the incoming list -/

def idxMap (f : Nat → JVal → JVal) : Nat → List JVal → List JVal
  | _, [] => []
  | j, a :: t => f j a :: idxMap f (j + 1) t

theorem length_idxMap (f : Nat → JVal → JVal) : ∀ (k : Nat) (l : List JVal),
    (idxMap f k l).length = l.length := by
  intro k l
  induction l generalizing k with
  | nil => rfl
  | cons a t ih => simp [idxMap, ih]

theorem getElem?_idxMap (f : Nat → JVal → JVal) : ∀ (k n : Nat) (l : List JVal),
    (idxMap f k l)[n]? = (l[n]?).map (f (k + n)) := by
  intro k n l
  induction l generalizing k n with
  | nil => simp [idxMap]
  | cons a t ih =>
    cases n with
    | zero => simp [idxMap]
    | succ n' =>
      simp only [idxMap, List.getElem?_cons_succ, ih (k + 1) n']
      have : k + 1 + n' = k + (n' + 1) := by omega
      rw [this]

theorem idxMap_append (f : Nat → JVal → JVal) : ∀ (k : Nat) (a b : List JVal),
    idxMap f k (a ++ b) = idxMap f k a ++ idxMap f (k + a.length) b := by
  intro k a b
  induction a generalizing k with
  | nil => simp [idxMap]
  | cons x t ih =>
    simp only [List.cons_append, idxMap, List.length_cons, List.append_eq]
    rw [ih (k + 1)]
    have : k + 1 + t.length = k + (t.length + 1) := by omega
    rw [this]

theorem idxMap_set (f : Nat → JVal → JVal) : ∀ (k i : Nat) (b : JVal) (l : List JVal),
    idxMap f k (l.set i b) = (idxMap f k l).set i (f (k + i) b) := by
  intro k i b l
  induction l generalizing k i with
  | nil => simp [idxMap]
  | cons a t ih =>
    cases i with
    | zero => simp [idxMap]
    | succ i' =>
      simp only [List.set_cons_succ, idxMap, List.set, ih (k + 1) i']
      have : k + 1 + i' = k + (i' + 1) := by omega
      rw [this]

theorem idxMap_id : ∀ (k : Nat) (l : List JVal), idxMap (fun _ a => a) k l = l := by
  intro k l
  induction l generalizing k with
  | nil => rfl
  | cons a t ih => simp [idxMap, ih]

theorem idxMap_congr {F G : Nat → JVal → JVal} : ∀ (k : Nat) (l : List JVal),
    (∀ j a, k ≤ j → F j a = G j a) → idxMap F k l = idxMap G k l := by
  intro k l
  induction l generalizing k with
  | nil => intro _; rfl
  | cons a t ih =>
    intro h
    simp only [idxMap, h k a (le_refl k),
      ih (k + 1) (fun j a hj => h j a (by omega))]

theorem idxMap_if_gt {F : Nat → JVal → JVal} {c : JVal} {i : Nat} (k : Nat)
    (l : List JVal) (h : i < k) :
    idxMap (fun j a => if j = i then F j c else F j a) k l = idxMap F k l :=
  idxMap_congr k l (fun j a hj => by
    have : ¬ j = i := by omega
    rw [if_neg this])

theorem idxMap_if_set {F : Nat → JVal → JVal} {c : JVal} {i : Nat} : ∀ (k : Nat)
    (l : List JVal), k ≤ i →
    idxMap (fun j a => if j = i then F j c else F j a) k l =
      (idxMap F k l).set (i - k) (F i c) := by
  intro k l
  induction l generalizing k with
  | nil => intro _; rfl
  | cons a t ih =>
    intro hk
    by_cases hik : k = i
    · subst hik
      simp only [idxMap, Nat.sub_self, List.set_cons_zero]
      rw [idxMap_if_gt (k + 1) t (by omega)]
      simp
    · have hlt : k < i := by omega
      simp only [idxMap, if_neg hik]
      rw [ih (k + 1) (by omega)]
      have h1 : i - k = (i - (k + 1)) + 1 := by omega
      rw [h1, List.set_cons_succ]

theorem idxMap_map_eq (g : JVal → Option JVal) {F : Nat → JVal → JVal} :
    ∀ (k : Nat) (l : List JVal),
    (∀ j a, l[j]? = some a → g (F (k + j) a) = g a) →
    (idxMap F k l).map g = l.map g := by
  intro k l
  induction l generalizing k with
  | nil => intro _; rfl
  | cons a t ih =>
    intro h
    simp only [idxMap, List.map_cons]
    have h0 : g (F k a) = g a := by
      have := h 0 a (by simp)
      simpa using this
    rw [h0, ih (k + 1) (fun j b hj => by
      have := h (j + 1) b (by simpa using hj)
      have harith : k + (j + 1) = k + 1 + j := by omega
      rw [harith] at this
      exact this)]

theorem idxMap_filter_eq (q : JVal → Bool) {F : Nat → JVal → JVal} :
    ∀ (k : Nat) (l : List JVal),
    (∀ j a, l[j]? = some a → F (k + j) a = a ∨ (q (F (k + j) a) = false ∧ q a = false)) →
    (idxMap F k l).filter q = l.filter q := by
  intro k l
  induction l generalizing k with
  | nil => intro _; rfl
  | cons a t ih =>
    intro h
    simp only [idxMap, List.filter_cons]
    have htail := ih (k + 1) (fun j b hj => by
      have := h (j + 1) b (by simpa using hj)
      have harith : k + (j + 1) = k + 1 + j := by omega
      rw [harith] at this
      exact this)
    rcases h 0 a (by simp) with h0 | ⟨hq1, hq2⟩
    · simp only [Nat.add_zero] at h0
      rw [h0, htail]
    · simp only [Nat.add_zero] at hq1
      rw [hq1, hq2, htail]
      simp

/-! ### What the upsert fold does at one position -/

/-- The value left at position `j` after the hosts of `H` were processed,
starting from `a`: each host whose `by_name` index is `j` overwrites the
accumulator with its profile. -/
def applyHosts (bn : List (JVal × Nat)) (H : List SshHost) (j : Nat) (a : JVal) : JVal :=
  H.foldl (fun acc h => if assocLast bn (JVal.str h.name) = some j then profileFor h else acc) a

theorem applyHosts_cons (bn : List (JVal × Nat)) (h : SshHost) (T : List SshHost)
    (j : Nat) (a : JVal) :
    applyHosts bn (h :: T) j a =
      applyHosts bn T j
        (if assocLast bn (JVal.str h.name) = some j then profileFor h else a) := rfl

theorem applyHosts_nomatch {bn : List (JVal × Nat)} {H : List SshHost} {j : Nat}
    (hno : ∀ h ∈ H, assocLast bn (JVal.str h.name) ≠ some j) (a : JVal) :
    applyHosts bn H j a = a := by
  induction H generalizing a with
  | nil => rfl
  | cons h T ih =>
    rw [applyHosts_cons, if_neg (hno h (List.mem_cons_self h T))]
    exact ih (fun h' hh' => hno h' (List.mem_cons_of_mem _ hh')) a

theorem applyHosts_eq_lastPick (bn : List (JVal × Nat)) (H : List SshHost)
    (j : Nat) (a : JVal) :
    applyHosts bn H j a =
      match lastPick (fun h => if assocLast bn (JVal.str h.name) = some j
          then some h else none) H with
      | some h => profileFor h
      | none => a := by
  induction H generalizing a with
  | nil => rfl
  | cons h T ih =>
    rw [applyHosts_cons, lastPick_cons, ih]
    by_cases hh : assocLast bn (JVal.str h.name) = some j
    · rw [if_pos hh, if_pos hh]
      cases lastPick (fun h => if assocLast bn (JVal.str h.name) = some j
          then some h else none) T <;> rfl
    · rw [if_neg hh, if_neg hh]
      cases lastPick (fun h => if assocLast bn (JVal.str h.name) = some j
          then some h else none) T <;> rfl

theorem tn_profileFor (h : SshHost) :
    tn (profileFor h) = if h.name = "" then none else some (JVal.str h.name) := by
  by_cases hn : h.name = ""
  · simp [tn, profileFor, JObj.get, jTruthy, hn]
  · simp [tn, profileFor, JObj.get, jTruthy, hn]

theorem entryName_profileFor (h : SshHost) :
    entryName (profileFor h) = some (JVal.str h.name) := by
  simp [entryName, profileFor, JObj.get]

theorem tn_some_truthy {p v : JVal} (h : tn p = some v) : jTruthy v = true := by
  unfold tn at h
  split at h
  · split at h
    · split at h
      · cases h; assumption
      · cases h
    · cases h
  · cases h

theorem tn_applyHosts {bn : List (JVal × Nat)} {H : List SshHost} {j : Nat} {a : JVal}
    (hyp : ∀ h ∈ H, assocLast bn (JVal.str h.name) = some j →
      tn a = some (JVal.str h.name)) :
    tn (applyHosts bn H j a) = tn a := by
  induction H generalizing a with
  | nil => rfl
  | cons h T ih =>
    rw [applyHosts_cons]
    by_cases hh : assocLast bn (JVal.str h.name) = some j
    · rw [if_pos hh]
      have hname : tn a = some (JVal.str h.name) := hyp h (List.mem_cons_self h T) hh
      have htruthy : jTruthy (JVal.str h.name) = true := tn_some_truthy hname
      have hne : ¬ h.name = "" := by
        intro hc
        rw [hc] at htruthy
        cases htruthy
      have hprof : tn (profileFor h) = some (JVal.str h.name) := by
        rw [tn_profileFor, if_neg hne]
      have harg : ∀ h' ∈ T, assocLast bn (JVal.str h'.name) = some j →
          tn (profileFor h) = some (JVal.str h'.name) := by
        intro h' hh' hlk'
        have h2 := hyp h' (List.mem_cons_of_mem _ hh') hlk'
        rw [hname] at h2
        rw [hprof, h2]
      rw [ih harg, hprof, hname]
    · rw [if_neg hh]
      exact ih (fun h' hh' => hyp h' (List.mem_cons_of_mem _ hh'))

theorem entryName_applyHosts {bn : List (JVal × Nat)} {H : List SshHost} {j : Nat} {a : JVal}
    (hyp : ∀ h ∈ H, assocLast bn (JVal.str h.name) = some j →
      entryName a = some (JVal.str h.name)) :
    entryName (applyHosts bn H j a) = entryName a := by
  induction H generalizing a with
  | nil => rfl
  | cons h T ih =>
    rw [applyHosts_cons]
    by_cases hh : assocLast bn (JVal.str h.name) = some j
    · rw [if_pos hh]
      have hname : entryName a = some (JVal.str h.name) := hyp h (List.mem_cons_self h T) hh
      have hprof : entryName (profileFor h) = some (JVal.str h.name) := entryName_profileFor h
      have harg : ∀ h' ∈ T, assocLast bn (JVal.str h'.name) = some j →
          entryName (profileFor h) = some (JVal.str h'.name) := by
        intro h' hh' hlk'
        have h2 := hyp h' (List.mem_cons_of_mem _ hh') hlk'
        rw [hname] at h2
        rw [hprof, h2]
      rw [ih harg, hprof, hname]
    · rw [if_neg hh]
      exact ih (fun h' hh' => hyp h' (List.mem_cons_of_mem _ hh'))

theorem upsertGo_cons (bn : List (JVal × Nat)) (h : SshHost) (T : List SshHost)
    (ps : List JVal) :
    upsertGo bn (h :: T) ps = upsertGo bn T (upsertStep bn ps h) := rfl

/-- Full characterization of the upsert fold: position `j` of the incoming
list ends up holding the profile of the last host whose `by_name` index is
`j` (or its old value), and the hosts not found in `by_name` are appended in
order, as profiles. -/
theorem upsertGo_char (bn : List (JVal × Nat)) (H : List SshHost) : ∀ ps : List JVal,
    (∀ h ∈ H, ∀ i, assocLast bn (JVal.str h.name) = some i → i < ps.length) →
    upsertGo bn H ps =
      idxMap (fun j a => applyHosts bn H j a) 0 ps ++
        (H.filter (fun h => (assocLast bn (JVal.str h.name)).isNone)).map profileFor := by
  induction H with
  | nil =>
    intro ps _
    show ps = idxMap (fun j a => a) 0 ps ++ []
    rw [idxMap_id, List.append_nil]
  | cons h T ih =>
    intro ps hb
    rw [upsertGo_cons]
    rcases hlk : assocLast bn (JVal.str h.name) with _ | i
    · -- not in by_name: the profile is appended
      have hstep : upsertStep bn ps h = ps ++ [profileFor h] := by
        unfold upsertStep; rw [hlk]
      rw [hstep]
      have hbound : ∀ h' ∈ T, ∀ i, assocLast bn (JVal.str h'.name) = some i →
          i < (ps ++ [profileFor h]).length := by
        intro h' hh' i hi
        have := hb h' (List.mem_cons_of_mem _ hh') i hi
        simp only [List.length_append, List.length_cons, List.length_nil]
        omega
      rw [ih (ps ++ [profileFor h]) hbound, idxMap_append]
      have hsing : idxMap (fun j a => applyHosts bn T j a) (0 + ps.length) [profileFor h] =
          [profileFor h] := by
        show [applyHosts bn T (0 + ps.length) (profileFor h)] = [profileFor h]
        rw [applyHosts_nomatch ?_ (profileFor h)]
        intro h' hh' hc
        have := hb h' (List.mem_cons_of_mem _ hh') (0 + ps.length) hc
        omega
      rw [hsing]
      have hfun : (fun j a => applyHosts bn (h :: T) j a) =
          (fun j a => applyHosts bn T j a) := by
        funext j a
        rw [applyHosts_cons, hlk]
        rw [if_neg (by intro hc; cases hc)]
      rw [hfun]
      have hfilter : (h :: T).filter (fun h' => (assocLast bn (JVal.str h'.name)).isNone) =
          h :: T.filter (fun h' => (assocLast bn (JVal.str h'.name)).isNone) :=
        List.filter_cons_of_pos (by rw [hlk]; rfl)
      rw [hfilter, List.map_cons, List.append_assoc, List.singleton_append]
    · -- in by_name at index i: the profile replaces position i
      have hstep : upsertStep bn ps h = ps.set i (profileFor h) := by
        unfold upsertStep; rw [hlk]
      rw [hstep]
      have hbound : ∀ h' ∈ T, ∀ i', assocLast bn (JVal.str h'.name) = some i' →
          i' < (ps.set i (profileFor h)).length := by
        intro h' hh' i' hi'
        have := hb h' (List.mem_cons_of_mem _ hh') i' hi'
        simpa using this
      rw [ih _ hbound, idxMap_set]
      have hfilter : (h :: T).filter (fun h' => (assocLast bn (JVal.str h'.name)).isNone) =
          T.filter (fun h' => (assocLast bn (JVal.str h'.name)).isNone) :=
        List.filter_cons_of_neg (by rw [hlk]; simp)
      rw [hfilter]
      have hfun : (fun j a => applyHosts bn (h :: T) j a) =
          (fun j a => if j = i then applyHosts bn T j (profileFor h)
            else applyHosts bn T j a) := by
        funext j a
        rw [applyHosts_cons, hlk]
        by_cases hji : j = i
        · subst hji
          rw [if_pos rfl, if_pos rfl]
        · rw [if_neg (by intro hc; cases hc; exact hji rfl), if_neg hji]
      rw [hfun]
      rw [idxMap_if_set 0 ps (by omega)]
      simp only [Nat.sub_zero, Nat.zero_add, Nat.add_zero]

/-! ### Specializations of the lookup lemmas to `buildByName` -/

theorem lk_sound {P : List JVal} {k : JVal} {i : Nat}
    (h : assocLast (buildByName P) k = some i) :
    i < P.length ∧ ∃ p, P[i]? = some p ∧ tn p = some k := by
  rw [assocLast_buildByName] at h
  obtain ⟨_, hlen, p, hp, htp⟩ := lkAux_some h
  rw [Nat.sub_zero] at hlen hp
  exact ⟨hlen, p, hp, htp⟩

theorem lk_none {P : List JVal} {k : JVal}
    (h : assocLast (buildByName P) k = none) : ∀ p ∈ P, tn p ≠ some k := by
  rw [assocLast_buildByName] at h
  exact lkAux_none_iff.mp h

theorem lk_mem_ne_none {P : List JVal} {k p : JVal}
    (hp : p ∈ P) (htp : tn p = some k) :
    assocLast (buildByName P) k ≠ none := by
  rw [assocLast_buildByName]
  exact lkAux_of_mem hp htp

theorem lk_last {P : List JVal} {k : JVal} {i : Nat}
    (h : assocLast (buildByName P) k = some i) :
    ∀ m p, P[m]? = some p → tn p = some k → m ≤ i := by
  rw [assocLast_buildByName] at h
  intro m p hm htp
  have := lkAux_last h m p hm htp
  omega

theorem entryName_of_tn {p v : JVal} (h : tn p = some v) : entryName p = some v := by
  unfold tn at h
  unfold entryName
  split at h
  · split at h
    · split at h
      · cases h
        assumption
      · cases h
    · cases h
  · cases h

theorem tn_of_entryName {p v : JVal} (h : entryName p = some v)
    (ht : jTruthy v = true) : tn p = some v := by
  unfold entryName at h
  unfold tn
  split at h
  · rw [h]
    show (if jTruthy v = true then some v else none) = some v
    rw [if_pos ht]
  · cases h

theorem lastPick_unique {f : α → Option β} {l : List α} {x : α} {b : β}
    (hx : x ∈ l) (hfx : f x = some b) (huniq : ∀ y ∈ l, f y ≠ none → y = x) :
    lastPick f l = some b := by
  induction l with
  | nil => cases hx
  | cons z t ih =>
    rw [lastPick_cons]
    cases ht : lastPick f t with
    | some c =>
      obtain ⟨y, hy, hfy⟩ := lastPick_some_mem ht
      have hyx : y = x := huniq y (List.mem_cons_of_mem _ hy) (by rw [hfy]; intro hc; cases hc)
      subst hyx
      rw [hfy] at hfx
      exact hfx
    | none =>
      have hall : ∀ y ∈ t, f y = none := (lastPick_eq_none_iff f t).mp ht
      rcases List.mem_cons.mp hx with rfl | hxt
      · exact hfx
      · rw [hall x hxt] at hfx
        cases hfx

/-! ### Shared helpers about names in profile lists -/

/-- Whether a profile-list entry is a dict whose string name is among
`names` — the condition under which `remove_profiles` drops it when host
names were given. -/
def namedIn (names : List String) (p : JVal) : Bool :=
  match p with
  | JVal.dict o =>
    match JObj.get o "name" with
    | some (JVal.str s) => names.contains s
    | _ => false
  | _ => false

theorem removeKeepG_nonempty (idfn : String → Option String) {names : List String}
    (hne : names ≠ []) (p : JVal) :
    removeKeepG idfn names p = !(namedIn names p) := by
  have hempty : names.isEmpty = false := by
    cases names with
    | nil => exact absurd rfl hne
    | cons a t => rfl
  cases p <;> try rfl
  case dict o =>
    rcases hn : JObj.get o "name" with _ | v
    · simp [removeKeepG, namedIn, hn, hempty]
    · cases v <;> simp [removeKeepG, namedIn, hn, hempty]

theorem namedIn_profileFor (names : List String) (h : SshHost) :
    namedIn names (profileFor h) = names.contains h.name := by
  simp [namedIn, profileFor, JObj.get]

theorem namedIn_of_tn {p : JVal} {s : String} (h : tn p = some (JVal.str s))
    (names : List String) : namedIn names p = names.contains s := by
  cases p with
  | dict o =>
    have he := entryName_of_tn h
    simp only [entryName] at he
    show (match JObj.get o "name" with
      | some (JVal.str s') => names.contains s'
      | _ => false) = names.contains s
    rw [he]
  | str s' => exact Option.noConfusion (entryName_of_tn h)
  | bool b => exact Option.noConfusion (entryName_of_tn h)
  | num n => exact Option.noConfusion (entryName_of_tn h)
  | null => exact Option.noConfusion (entryName_of_tn h)
  | arr a => exact Option.noConfusion (entryName_of_tn h)

theorem contains_of_mem_names {names : List String} {s : String}
    (h : s ∈ names) : names.contains s = true := by
  simpa [List.contains] using h

/-- C2, amended with a nonempty host list: the upsert-then-remove round trip
leaves exactly the pre-existing entries whose name is not among the hosts'
names, unchanged and in their original relative order, and nothing in the
result carries a host name. -/
theorem upsert_remove_round_trip (P : List JVal) (H : List SshHost) (hne : H ≠ []) :
    remove_profiles (upsert_profiles P H) H =
      P.filter (fun p => !(namedIn (H.map (fun h => h.name)) p)) ∧
    ∀ p ∈ remove_profiles (upsert_profiles P H) H,
      namedIn (H.map (fun h => h.name)) p = false := by
  have hnames_ne : H.map (fun h => h.name) ≠ [] := by
    cases H with
    | nil => exact absurd rfl hne
    | cons a t => intro hc; cases hc
  have hrw : remove_profiles (upsert_profiles P H) H =
      (upsert_profiles P H).filter (fun p => !(namedIn (H.map (fun h => h.name)) p)) := by
    unfold remove_profiles remove_profilesG
    apply List.filter_congr
    intro p _
    exact removeKeepG_nonempty _ hnames_ne p
  have hbound : ∀ h ∈ H, ∀ i,
      assocLast (buildByName P) (JVal.str h.name) = some i → i < P.length :=
    fun h _ i hi => (lk_sound hi).1
  have hchar := upsertGo_char (buildByName P) H P hbound
  constructor
  · rw [hrw]
    show (upsertGo (buildByName P) H P).filter _ = _
    rw [hchar, List.filter_append]
    have happ : (((H.filter (fun h =>
          (assocLast (buildByName P) (JVal.str h.name)).isNone)).map profileFor).filter
        (fun p => !(namedIn (H.map (fun h => h.name)) p))) = [] := by
      rw [List.filter_eq_nil_iff]
      intro p hp
      obtain ⟨h, hh, rfl⟩ := List.mem_map.mp hp
      have hmem : h ∈ H := List.mem_of_mem_filter hh
      have hin : h.name ∈ H.map (fun h => h.name) := List.mem_map.mpr ⟨h, hmem, rfl⟩
      rw [namedIn_profileFor, contains_of_mem_names hin]
      decide
    rw [happ, List.append_nil]
    apply idxMap_filter_eq
    intro j a hj
    simp only [Nat.zero_add]
    rw [applyHosts_eq_lastPick]
    cases hlp : lastPick (fun h => if assocLast (buildByName P) (JVal.str h.name) = some j
        then some h else none) H with
    | none => left; rfl
    | some h₀ =>
      right
      obtain ⟨y, hy, hfy⟩ := lastPick_some_mem hlp
      have hyy : assocLast (buildByName P) (JVal.str y.name) = some j ∧ y = h₀ := by
        by_cases hc : assocLast (buildByName P) (JVal.str y.name) = some j
        · rw [if_pos hc] at hfy
          exact ⟨hc, by cases hfy; rfl⟩
        · rw [if_neg hc] at hfy
          cases hfy
      obtain ⟨hlk0, rfl⟩ := hyy
      have hin : y.name ∈ H.map (fun h => h.name) := List.mem_map.mpr ⟨y, hy, rfl⟩
      constructor
      · show (!namedIn (H.map (fun h => h.name)) (profileFor y)) = false
        rw [namedIn_profileFor, contains_of_mem_names hin]
        rfl
      · obtain ⟨_, p, hp, htp⟩ := lk_sound hlk0
        rw [hj] at hp
        have hpa : p = a := by cases hp; rfl
        subst hpa
        show (!namedIn (H.map (fun h => h.name)) p) = false
        rw [namedIn_of_tn htp, contains_of_mem_names hin]
        rfl
  · intro p hp
    rw [hrw] at hp
    have := (List.mem_filter.mp hp).2
    simpa using this

theorem filterMap_congr_of_map_eq {f : α → Option β} : ∀ {l₁ l₂ : List α},
    l₁.map f = l₂.map f → l₁.filterMap f = l₂.filterMap f := by
  intro l₁
  induction l₁ with
  | nil =>
    intro l₂ h
    cases l₂ with
    | nil => rfl
    | cons b t => cases h
  | cons a t ih =>
    intro l₂ h
    cases l₂ with
    | nil => cases h
    | cons b t₂ =>
      simp only [List.map_cons, List.cons.injEq] at h
      obtain ⟨hab, htt⟩ := h
      rw [List.filterMap_cons, List.filterMap_cons, hab, ih htt]

theorem dictNames_append (A B : List JVal) :
    dictNames (A ++ B) = dictNames A ++ dictNames B :=
  List.filterMap_append A B entryName

theorem dictNames_map_prof : ∀ Hs : List SshHost,
    dictNames (Hs.map profileFor) = Hs.map (fun h => JVal.str h.name) := by
  intro Hs
  induction Hs with
  | nil => rfl
  | cons h T ih =>
    show dictNames (profileFor h :: T.map profileFor) = _
    unfold dictNames
    rw [List.filterMap_cons, entryName_profileFor]
    show JVal.str h.name :: dictNames (T.map profileFor) = _
    rw [ih, List.map_cons]

theorem strInjective : Function.Injective JVal.str := by
  intro a b h
  cases h
  rfl

/-- C1, amended: when the incoming dict names are pairwise distinct, the
hosts' names are pairwise distinct and nonempty, upsert leaves at most one
dict per name, and a host whose name already occurs replaces the profile at
the position of that (unique) occurrence. -/
theorem upsert_unique_names (P : List JVal) (H : List SshHost)
    (hP : (dictNames P).Nodup)
    (hH : (H.map (fun h => h.name)).Nodup)
    (hne' : ∀ h ∈ H, h.name ≠ "") :
    (dictNames (upsert_profiles P H)).Nodup ∧
    (∀ h ∈ H, ∀ i, assocLast (buildByName P) (JVal.str h.name) = some i →
      (upsert_profiles P H)[i]? = some (profileFor h) ∧
      ∃ p, P[i]? = some p ∧ tn p = some (JVal.str h.name)) := by
  have hbound : ∀ h ∈ H, ∀ i,
      assocLast (buildByName P) (JVal.str h.name) = some i → i < P.length :=
    fun h _ i hi => (lk_sound hi).1
  have hchar := upsertGo_char (buildByName P) H P hbound
  constructor
  · show (dictNames (upsertGo (buildByName P) H P)).Nodup
    rw [hchar, dictNames_append, dictNames_map_prof]
    have hidx : dictNames (idxMap (fun j a => applyHosts (buildByName P) H j a) 0 P) =
        dictNames P := by
      apply filterMap_congr_of_map_eq
      apply idxMap_map_eq
      intro j a hj
      simp only [Nat.zero_add]
      apply entryName_applyHosts
      intro h hh hlk
      obtain ⟨_, p, hp, htp⟩ := lk_sound hlk
      rw [hj] at hp
      have hpa : p = a := by cases hp; rfl
      subst hpa
      exact entryName_of_tn htp
    rw [hidx, List.nodup_append]
    refine ⟨hP, ?_, ?_⟩
    · have h1 : (H.map (fun h => JVal.str h.name)).Nodup := by
        have h2 := hH.map strInjective
        rw [List.map_map] at h2
        exact h2
      have hsub : List.Sublist ((H.filter (fun h =>
            (assocLast (buildByName P) (JVal.str h.name)).isNone)).map
            (fun h => JVal.str h.name)) (H.map (fun h => JVal.str h.name)) :=
        (List.filter_sublist H).map _
      exact h1.sublist hsub
    · intro a ha hb
      obtain ⟨p, hpP, hpen⟩ := List.mem_filterMap.mp ha
      obtain ⟨h, hhf, rfl⟩ := List.mem_map.mp hb
      have hmemH : h ∈ H := List.mem_of_mem_filter hhf
      have htruthy : jTruthy (JVal.str h.name) = true := by
        have := hne' h hmemH
        simp [jTruthy, this]
      have htn : tn p = some (JVal.str h.name) := tn_of_entryName hpen htruthy
      have hisnone := (List.mem_filter.mp hhf).2
      have hnone : assocLast (buildByName P) (JVal.str h.name) = none := by
        cases hx : assocLast (buildByName P) (JVal.str h.name) with
        | none => rfl
        | some r => rw [hx] at hisnone; cases hisnone
      exact lk_none hnone p hpP htn
  · intro h hh i hi
    obtain ⟨hiP, p, hp, htp⟩ := lk_sound hi
    refine ⟨?_, p, hp, htp⟩
    show (upsertGo (buildByName P) H P)[i]? = some (profileFor h)
    rw [hchar]
    rw [List.getElem?_append, length_idxMap, if_pos hiP]
    rw [getElem?_idxMap, hp]
    simp only [Nat.zero_add, Option.map_some']
    have hlast : lastPick (fun h' =>
        if assocLast (buildByName P) (JVal.str h'.name) = some i
        then some h' else none) H = some h := by
      apply lastPick_unique hh (by rw [if_pos hi])
      intro y hy hfy
      by_cases hcy : assocLast (buildByName P) (JVal.str y.name) = some i
      · obtain ⟨_, p', hp', htp'⟩ := lk_sound hcy
        rw [hp] at hp'
        have hpp : p' = p := by cases hp'; rfl
        subst hpp
        rw [htp] at htp'
        have hnameeq : y.name = h.name := by
          have h2 := Option.some.inj htp'
          exact (strInjective h2).symm
        exact List.inj_on_of_nodup_map hH hy hh (by rw [hnameeq])
      · rw [if_neg hcy] at hfy
        exact absurd rfl hfy
    rw [applyHosts_eq_lastPick, hlast]

/-! ### Second-application analysis: the upsert fold replays into the same list -/

/-- The last host of a list carrying a given name. -/
def getLastNamed (Hs : List SshHost) (n : String) : Option SshHost :=
  lastPick (fun h => if h.name = n then some h else none) Hs

theorem getLastNamed_mem {Hs : List SshHost} {n : String} {h : SshHost}
    (hx : getLastNamed Hs n = some h) : h ∈ Hs ∧ h.name = n := by
  obtain ⟨y, hy, hfy⟩ := lastPick_some_mem hx
  by_cases hc : y.name = n
  · rw [if_pos hc] at hfy
    cases hfy
    exact ⟨hy, hc⟩
  · rw [if_neg hc] at hfy
    cases hfy

/-- Replaying the upsert fold over a list `L` in which every host already has
its (unique last) profile leaves `L` unchanged.  `bn'` is the `by_name`
index of `L` itself; the conditions say that every host is found by the
lookup, and that the position the lookup returns for a name holds the
profile of the last host with that name. -/
theorem upsertGo_replay (bn' : List (JVal × Nat)) (L : List JVal) :
    ∀ (H : List SshHost) (ps : List JVal),
    ps.length = L.length →
    (∀ j, j < L.length → ps[j]? = L[j]? ∨ ∃ h ∈ H, assocLast bn' (JVal.str h.name) = some j) →
    (∀ h ∈ H, ∃ i, i < L.length ∧ assocLast bn' (JVal.str h.name) = some i) →
    (∀ n i h, assocLast bn' (JVal.str n) = some i →
       getLastNamed H n = some h → L[i]? = some (profileFor h)) →
    upsertGo bn' H ps = L := by
  intro H
  induction H with
  | nil =>
    intro ps hlen hB _ _
    show ps = L
    apply List.ext_getElem?
    intro n
    by_cases hn : n < L.length
    · rcases hB n hn with h1 | ⟨h, hmem, _⟩
      · exact h1
      · cases hmem
    · rw [List.getElem?_eq_none (by omega), List.getElem?_eq_none (by omega : L.length ≤ n)]
  | cons h T ih =>
    intro ps hlen hB hC hD
    rw [upsertGo_cons]
    obtain ⟨i, hiL, hlk⟩ := hC h (List.mem_cons_self h T)
    have hstep : upsertStep bn' ps h = ps.set i (profileFor h) := by
      unfold upsertStep
      rw [hlk]
    rw [hstep]
    apply ih (ps.set i (profileFor h))
    · rw [List.length_set]
      exact hlen
    · intro j hj
      by_cases hij : j = i
      · subst hij
        by_cases hex : ∃ h' ∈ T, h'.name = h.name
        · right
          obtain ⟨h', hh', hname'⟩ := hex
          exact ⟨h', hh', by rw [hname']; exact hlk⟩
        · left
          have hnoT : lastPick (fun y => if y.name = h.name then some y else none) T = none := by
            rw [lastPick_eq_none_iff]
            intro y hy
            by_cases hc : y.name = h.name
            · exact absurd ⟨y, hy, hc⟩ hex
            · rw [if_neg hc]
          have hlast : getLastNamed (h :: T) h.name = some h := by
            unfold getLastNamed
            rw [lastPick_cons, hnoT]
            rw [if_pos rfl]
          have hL := hD h.name j h hlk hlast
          rw [List.getElem?_set_self (by omega), hL]
      · rw [List.getElem?_set_ne (fun he => hij he.symm)]
        rcases hB j hj with h1 | ⟨h'', hmem'', hlk''⟩
        · left
          exact h1
        · right
          rcases List.mem_cons.mp hmem'' with rfl | hT
          · rw [hlk] at hlk''
            exact absurd (Option.some.inj hlk'') (fun he => hij he.symm)
          · exact ⟨h'', hT, hlk''⟩
    · intro h' hh'
      exact hC h' (List.mem_cons_of_mem _ hh')
    · intro n i' h' hlk' hlastT
      apply hD n i' h' hlk'
      unfold getLastNamed at hlastT ⊢
      rw [lastPick_cons, hlastT]

theorem tn_applied_pos {P : List JVal} (H : List SshHost) {j : Nat} {p₀ : JVal}
    (hp : P[j]? = some p₀) :
    tn (applyHosts (buildByName P) H j p₀) = tn p₀ := by
  apply tn_applyHosts
  intro h'' _ hlk''
  obtain ⟨_, p', hp', htp'⟩ := lk_sound hlk''
  rw [hp] at hp'
  have hpp : p' = p₀ := by cases hp'; rfl
  subst hpp
  exact htp'

/-- C3, amended to hosts with nonempty names: applying the upsert twice with
the same hosts yields exactly the list the first application produced. -/
theorem upsert_idempotent_general (P : List JVal) (H : List SshHost)
    (hne : ∀ h ∈ H, h.name ≠ "") :
    upsert_profiles (upsert_profiles P H) H = upsert_profiles P H := by
  have hbound : ∀ h ∈ H, ∀ i,
      assocLast (buildByName P) (JVal.str h.name) = some i → i < P.length :=
    fun h _ i hi => (lk_sound hi).1
  have hchar := upsertGo_char (buildByName P) H P hbound
  set L := upsert_profiles P H with hL
  have hLAB : L = idxMap (fun j a => applyHosts (buildByName P) H j a) 0 P ++
      (H.filter (fun h => (assocLast (buildByName P) (JVal.str h.name)).isNone)).map
        profileFor := hchar
  have hLpos : ∀ j p₀, P[j]? = some p₀ →
      L[j]? = some (applyHosts (buildByName P) H j p₀) := by
    intro j p₀ hp
    have hjP : j < P.length := by
      by_contra hcon
      rw [List.getElem?_eq_none (by omega)] at hp
      cases hp
    rw [hLAB, List.getElem?_append, length_idxMap, if_pos hjP, getElem?_idxMap, hp]
    simp only [Nat.zero_add, Option.map_some']
  show upsertGo (buildByName L) H L = L
  apply upsertGo_replay (buildByName L) L H L rfl (fun j _ => Or.inl rfl)
  · -- every host is found by the second lookup
    intro h hh
    have hq : ∃ q ∈ L, tn q = some (JVal.str h.name) := by
      rcases hlk : assocLast (buildByName P) (JVal.str h.name) with _ | i₀
      · have hf : h ∈ H.filter (fun h' =>
            (assocLast (buildByName P) (JVal.str h'.name)).isNone) :=
          List.mem_filter.mpr ⟨hh, by rw [hlk]; rfl⟩
        refine ⟨profileFor h, ?_, ?_⟩
        · rw [hLAB]
          exact List.mem_append.mpr (Or.inr (List.mem_map.mpr ⟨h, hf, rfl⟩))
        · rw [tn_profileFor, if_neg (hne h hh)]
      · obtain ⟨hi₀, p₀, hp₀, htp₀⟩ := lk_sound hlk
        refine ⟨applyHosts (buildByName P) H i₀ p₀, ?_, ?_⟩
        · exact List.mem_iff_getElem?.mpr ⟨i₀, hLpos i₀ p₀ hp₀⟩
        · rw [tn_applied_pos H hp₀, htp₀]
    obtain ⟨q, hqL, htq⟩ := hq
    have hnn := lk_mem_ne_none hqL htq
    rcases hlk' : assocLast (buildByName L) (JVal.str h.name) with _ | i
    · exact absurd hlk' hnn
    · exact ⟨i, (lk_sound hlk').1, rfl⟩
  · -- the position the second lookup returns already holds the last profile
    intro n i h' hlk' hlastN
    obtain ⟨hmemh', hnameh'⟩ := getLastNamed_mem hlastN
    have hn_ne : n ≠ "" := by
      rw [← hnameh']
      exact hne h' hmemh'
    obtain ⟨hiL, q, hq, htq⟩ := lk_sound hlk'
    by_cases hiP : i < P.length
    · obtain ⟨p₀, hp₀⟩ : ∃ p₀, P[i]? = some p₀ := by
        cases hx : P[i]? with
        | some p₀ => exact ⟨p₀, rfl⟩
        | none =>
          rw [List.getElem?_eq_none_iff] at hx
          omega
      have hLq : L[i]? = some (applyHosts (buildByName P) H i p₀) := hLpos i p₀ hp₀
      rw [hq] at hLq
      have hqeq : q = applyHosts (buildByName P) H i p₀ := by cases hLq; rfl
      have htp₀ : tn p₀ = some (JVal.str n) := by
        have h1 : tn q = tn p₀ := by
          rw [hqeq]
          exact tn_applied_pos H hp₀
        rw [← h1]
        exact htq
      have hlkne : assocLast (buildByName P) (JVal.str n) ≠ none :=
        lk_mem_ne_none (List.mem_iff_getElem?.mpr ⟨i, hp₀⟩) htp₀
      rcases hlkn : assocLast (buildByName P) (JVal.str n) with _ | i₀
      · exact absurd hlkn hlkne
      have hii₀ : i ≤ i₀ := lk_last hlkn i p₀ hp₀ htp₀
      have hi₀i : i₀ ≤ i := by
        obtain ⟨hi₀P, p₁, hp₁, htp₁⟩ := lk_sound hlkn
        have hL1 : L[i₀]? = some (applyHosts (buildByName P) H i₀ p₁) := hLpos i₀ p₁ hp₁
        have htn1 : tn (applyHosts (buildByName P) H i₀ p₁) = some (JVal.str n) := by
          rw [tn_applied_pos H hp₁]
          exact htp₁
        exact lk_last hlk' i₀ _ hL1 htn1
      have hieq : i₀ = i := by omega
      subst hieq
      have hiff : ∀ h'' ∈ H,
          (assocLast (buildByName P) (JVal.str h''.name) = some i₀ ↔ h''.name = n) := by
        intro h'' hh''
        constructor
        · intro hlk''
          obtain ⟨_, p', hp', htp'⟩ := lk_sound hlk''
          rw [hp₀] at hp'
          have hpp : p' = p₀ := by cases hp'; rfl
          subst hpp
          rw [htp₀] at htp'
          exact (strInjective (Option.some.inj htp')).symm
        · intro hname''
          rw [hname'']
          exact hlkn
      have happ : applyHosts (buildByName P) H i₀ p₀ = profileFor h' := by
        rw [applyHosts_eq_lastPick]
        have hcong : lastPick (fun h'' =>
            if assocLast (buildByName P) (JVal.str h''.name) = some i₀
            then some h'' else none) H = getLastNamed H n := by
          unfold getLastNamed
          apply lastPick_congr
          intro h'' hh''
          by_cases hc : h''.name = n
          · rw [if_pos ((hiff h'' hh'').mpr hc), if_pos hc]
          · rw [if_neg (fun hx => hc ((hiff h'' hh'').mp hx)), if_neg hc]
        rw [hcong, hlastN]
      rw [hq, hqeq, happ]
    · have hLi : L[i]? = ((H.filter (fun h'' =>
          (assocLast (buildByName P) (JVal.str h''.name)).isNone)).map
            profileFor)[i - P.length]? := by
        rw [hLAB, List.getElem?_append, length_idxMap, if_neg hiP]
      rw [hq] at hLi
      have hmapq : ((H.filter (fun h'' =>
          (assocLast (buildByName P) (JVal.str h''.name)).isNone))[i - P.length]?).map
            profileFor = some q := by
        rw [← List.getElem?_map]
        exact hLi.symm
      obtain ⟨h₂, hh₂, hq₂⟩ : ∃ h₂, (H.filter (fun h'' =>
          (assocLast (buildByName P) (JVal.str h''.name)).isNone))[i - P.length]? =
            some h₂ ∧ q = profileFor h₂ := by
        cases hx : (H.filter (fun h'' =>
            (assocLast (buildByName P) (JVal.str h''.name)).isNone))[i - P.length]? with
        | none =>
          rw [hx] at hmapq
          cases hmapq
        | some h₂ =>
          rw [hx] at hmapq
          exact ⟨h₂, rfl, by cases hmapq; rfl⟩
      have hname₂ : h₂.name = n := by
        rw [hq₂, tn_profileFor] at htq
        by_cases hc : h₂.name = ""
        · rw [if_pos hc] at htq
          cases htq
        · rw [if_neg hc] at htq
          exact strInjective (Option.some.inj htq)
      have hmem₂ : h₂ ∈ H.filter (fun h'' =>
          (assocLast (buildByName P) (JVal.str h''.name)).isNone) :=
        List.mem_iff_getElem?.mpr ⟨_, hh₂⟩
      have hlknone : assocLast (buildByName P) (JVal.str n) = none := by
        have hisn := (List.mem_filter.mp hmem₂).2
        rw [← hname₂]
        cases hx : assocLast (buildByName P) (JVal.str h₂.name) with
        | none => rfl
        | some r =>
          rw [hx] at hisn
          cases hisn
      have hfilterlast : getLastNamed (H.filter (fun h'' =>
          (assocLast (buildByName P) (JVal.str h''.name)).isNone)) n =
            getLastNamed H n := by
        unfold getLastNamed
        apply lastPick_filter
        intro x hx hxne
        have hxn : x.name = n := by
          by_cases hc : x.name = n
          · exact hc
          · rw [if_neg hc] at hxne
            exact absurd rfl hxne
        show (assocLast (buildByName P) (JVal.str x.name)).isNone = true
        rw [hxn, hlknone]
        rfl
      have hmax : ∀ m y, (H.filter (fun h'' =>
          (assocLast (buildByName P) (JVal.str h''.name)).isNone))[m]? = some y →
          (if y.name = n then some y else none) ≠ none → m ≤ i - P.length := by
        intro m y hm hyne
        have hyn : y.name = n := by
          by_cases hc : y.name = n
          · exact hc
          · rw [if_neg hc] at hyne
            exact absurd rfl hyne
        have hLm : L[P.length + m]? = some (profileFor y) := by
          rw [hLAB, List.getElem?_append, length_idxMap, if_neg (by omega)]
          have harith : P.length + m - P.length = m := by omega
          rw [harith, List.getElem?_map, hm]
          rfl
        have htny : tn (profileFor y) = some (JVal.str n) := by
          rw [tn_profileFor, if_neg (by rw [hyn]; exact hn_ne), hyn]
        have := lk_last hlk' (P.length + m) _ hLm htny
        omega
      have hgf : getLastNamed (H.filter (fun h'' =>
          (assocLast (buildByName P) (JVal.str h''.name)).isNone)) n = some h₂ := by
        unfold getLastNamed
        apply lastPick_of_max hh₂ (by rw [if_pos hname₂])
        exact hmax
      have hh₂h' : h₂ = h' := by
        have h1 : some h₂ = some h' := by
          rw [← hgf, hfilterlast, hlastN]
        exact Option.some.inj h1
      rw [hq, hq₂, hh₂h']

theorem upsertGo_mem_general (bn : List (JVal × Nat)) :
    ∀ (H : List SshHost) (ps : List JVal) (p : JVal),
    p ∈ upsertGo bn H ps → p ∈ ps ∨ ∃ h ∈ H, p = profileFor h := by
  intro H
  induction H with
  | nil =>
    intro ps p hp
    left
    exact hp
  | cons h T ih =>
    intro ps p hp
    rw [upsertGo_cons] at hp
    rcases ih _ p hp with hmem | ⟨h', hh', rfl⟩
    · unfold upsertStep at hmem
      rcases hlk : assocLast bn (JVal.str h.name) with _ | i
      · rw [hlk] at hmem
        rcases List.mem_append.mp hmem with h1 | h2
        · left
          exact h1
        · right
          exact ⟨h, List.mem_cons_self h T, List.mem_singleton.mp h2⟩
      · rw [hlk] at hmem
        rcases List.mem_or_eq_of_mem_set hmem with h1 | h2
        · left
          exact h1
        · right
          exact ⟨h, List.mem_cons_self h T, h2⟩
    · right
      exact ⟨h', List.mem_cons_of_mem _ hh', rfl⟩

/-- C9: every entry of the upserted list is either an untouched original
entry or exactly the four-key profile object built for one of the hosts; a
matched profile is replaced wholesale, discarding any other keys it carried
(here `colorScheme` and `source`). -/
theorem upsert_replaces_wholesale :
    (∀ (P : List JVal) (H : List SshHost) (p : JVal),
        p ∈ upsert_profiles P H → p ∈ P ∨ ∃ h ∈ H, p = profileFor h) ∧
    upsert_profiles
        [JVal.dict (JObj.cons "name" (JVal.str "A")
          (JObj.cons "colorScheme" (JVal.str "Campbell")
            (JObj.cons "source" (JVal.str "user") JObj.nil)))]
        [⟨"A", some "a.example", none, none, none⟩] =
      [profileFor ⟨"A", some "a.example", none, none, none⟩] :=
  ⟨fun P H p hp => upsertGo_mem_general (buildByName P) H P p hp, by decide⟩

theorem upsert_replaces_wholesale_witness :
    (JVal.str "junk" ∈ upsert_profiles [JVal.str "junk"]
        [⟨"A", some "a.example", none, none, none⟩]) ∧
    (JVal.str "junk" ∈ ([JVal.str "junk"] : List JVal) ∨
      ∃ h ∈ [(⟨"A", some "a.example", none, none, none⟩ : SshHost)],
        JVal.str "junk" = profileFor h) :=
  ⟨by decide,
   upsert_replaces_wholesale.1 [JVal.str "junk"]
     [⟨"A", some "a.example", none, none, none⟩] (JVal.str "junk") (by decide)⟩

theorem upsert_unique_names_witness :
    (dictNames [JVal.dict (JObj.cons "name" (JVal.str "A") JObj.nil)]).Nodup ∧
    (([(⟨"A", some "1.2.3.4", none, none, none⟩ : SshHost)].map (fun h => h.name)).Nodup) ∧
    (∀ h ∈ [(⟨"A", some "1.2.3.4", none, none, none⟩ : SshHost)], h.name ≠ "") ∧
    ((dictNames (upsert_profiles [JVal.dict (JObj.cons "name" (JVal.str "A") JObj.nil)]
        [⟨"A", some "1.2.3.4", none, none, none⟩])).Nodup ∧
      (∀ h ∈ [(⟨"A", some "1.2.3.4", none, none, none⟩ : SshHost)], ∀ i,
        assocLast (buildByName [JVal.dict (JObj.cons "name" (JVal.str "A") JObj.nil)])
          (JVal.str h.name) = some i →
        (upsert_profiles [JVal.dict (JObj.cons "name" (JVal.str "A") JObj.nil)]
          [⟨"A", some "1.2.3.4", none, none, none⟩])[i]? = some (profileFor h) ∧
        ∃ p, [JVal.dict (JObj.cons "name" (JVal.str "A") JObj.nil)][i]? = some p ∧
          tn p = some (JVal.str h.name))) :=
  ⟨by decide, by decide, by decide,
   upsert_unique_names [JVal.dict (JObj.cons "name" (JVal.str "A") JObj.nil)]
     [⟨"A", some "1.2.3.4", none, none, none⟩] (by decide) (by decide) (by decide)⟩

theorem upsert_remove_round_trip_witness :
    (([(⟨"A", some "a.example", none, none, none⟩ : SshHost)] : List SshHost) ≠ []) ∧
    (remove_profiles (upsert_profiles [JVal.dict (JObj.cons "name" (JVal.str "B") JObj.nil)]
        [⟨"A", some "a.example", none, none, none⟩])
        [⟨"A", some "a.example", none, none, none⟩] =
      [JVal.dict (JObj.cons "name" (JVal.str "B") JObj.nil)].filter (fun p =>
        !(namedIn ([(⟨"A", some "a.example", none, none, none⟩ : SshHost)].map
            (fun h => h.name)) p)) ∧
      ∀ p ∈ remove_profiles (upsert_profiles
          [JVal.dict (JObj.cons "name" (JVal.str "B") JObj.nil)]
          [⟨"A", some "a.example", none, none, none⟩])
          [⟨"A", some "a.example", none, none, none⟩],
        namedIn ([(⟨"A", some "a.example", none, none, none⟩ : SshHost)].map
          (fun h => h.name)) p = false) :=
  ⟨by decide,
   upsert_remove_round_trip [JVal.dict (JObj.cons "name" (JVal.str "B") JObj.nil)]
     [⟨"A", some "a.example", none, none, none⟩] (by decide)⟩

theorem upsert_idempotent_general_witness :
    (∀ h ∈ [(⟨"A", some "a.example", none, none, none⟩ : SshHost)], h.name ≠ "") ∧
    upsert_profiles (upsert_profiles [] [⟨"A", some "a.example", none, none, none⟩])
        [⟨"A", some "a.example", none, none, none⟩] =
      upsert_profiles [] [⟨"A", some "a.example", none, none, none⟩] :=
  ⟨by decide,
   upsert_idempotent_general [] [⟨"A", some "a.example", none, none, none⟩] (by decide)⟩
